import Mathlib

/-!
# `copy.c`: file copy through a shared circular buffer

A shallow embedding of `src/copy.c`.  The C program copies a source file to a
destination file: producer threads (`inRoutine`) read the source byte by byte
and push `(byte, offset)` items into a circular buffer, consumer threads
(`outRoutine`) pop items and write each byte at its offset in the destination,
and every step is appended to a log file.

Conventions of the embedding:

* C `int`, `long` and `off_t` values are `Int`.  The addition `size + 1` of
  `cbufferInit` is taken in 32 bits (`toInt32`), since `size` comes from the
  command line and may be the largest `int`.  The other arithmetic
  (`cursor + 1`, `maxlen - 1`, `offset - 1`) stays inside the machine range
  wherever a statement uses it.
* `char` is the signed 8-bit type of the x86 Linux targets the program is
  built for; `toChar` is the conversion of an `int` to it.
* A file is its list of bytes together with the position indicator.
* A thread body is a loop; the loop functions take a bound on the number of
  iterations and answer `none` when the bound is reached before the thread
  exits.
* The statements concern runs in which the threads execute one after the
  other, so the `rwlock`, the random sleeps and the `static` locals have no
  effect on the state and are left out.
-/

namespace Copy

/-! ## The circular buffer -/

/-- The struct `BUFFER_ITEM`: the `char data` and the `off_t offset` of one byte. -/
structure BUFFER_ITEM where
  data : Int
  offset : Int
deriving DecidableEq, Repr

/-- The struct `CIRCULAR_BUFFER`: the allocated array and the three `int` fields. -/
structure CIRCULAR_BUFFER where
  buffer : List BUFFER_ITEM
  head : Int
  tail : Int
  maxlen : Int
deriving DecidableEq, Repr

/-- Return code of `pthread_mutex_lock(&lock)`.  `lock` is the default mutex
that `main` initialises before it creates a thread; locking it succeeds. -/
def pthread_mutex_lock : Int := 0

/-- The value an `int` expression takes when its mathematical value is `v`:
an `int` addition that leaves the range wraps round in 32 bits on the target,
so that `2147483647 + 1` is `-2147483648`. -/
def toInt32 (v : Int) : Int := (v + 2147483648) % 4294967296 - 2147483648

/-- The call `cbufferInit(cb, size)`.  `maxlen` is the `int` sum `size + 1`.
`malloc` hands back `maxlen` slots whose content is whatever the memory held;
`mem` is that content, slot by slot.  For a `maxlen` that is not positive
there is no slot: the request is for zero bytes, or for more bytes than can be
had, which `malloc` answers with `NULL`, and the result is not checked. -/
def cbufferInit (size : Int) (mem : Nat → BUFFER_ITEM) : CIRCULAR_BUFFER :=
  { maxlen := toInt32 (size + 1)
    buffer := (List.range (toInt32 (size + 1)).toNat).map mem
    head := 0
    tail := 0 }

/-- The call `cbufferPush(cb, value)`: the returned `int` and the buffer
afterwards.  `none` stands for the two ways of not returning: the
`pthread_exit` after a failed lock, and a store outside the allocated array. -/
def cbufferPush (cb : CIRCULAR_BUFFER) (value : BUFFER_ITEM) :
    Option (Int × CIRCULAR_BUFFER) :=
  let rc := pthread_mutex_lock
  if rc ≠ 0 then none
  else
    let next := cb.head + 1
    let next := if next ≥ cb.maxlen - 1 then 0 else next
    if 0 ≤ cb.head ∧ cb.head < cb.buffer.length then
      some (next, { cb with buffer := cb.buffer.set cb.head.toNat value, head := next })
    else none

/-- The call `cbufferPop(cb, &value)`: the returned `int`, the item stored
into `*value`, and the buffer afterwards.  `none` as for `cbufferPush`. -/
def cbufferPop (cb : CIRCULAR_BUFFER) :
    Option (Int × BUFFER_ITEM × CIRCULAR_BUFFER) :=
  let rc := pthread_mutex_lock
  if rc ≠ 0 then none
  else
    let next := cb.tail + 1
    let next := if next ≥ cb.maxlen - 1 then 0 else next
    if 0 ≤ cb.tail ∧ cb.tail < cb.buffer.length then
      match cb.buffer[cb.tail.toNat]? with
      | some value => some (next, value, { cb with tail := next })
      | none => none
    else none

/-- The array of a well-formed buffer has exactly `maxlen` slots. -/
def WellFormed (cb : CIRCULAR_BUFFER) : Prop :=
  (cb.buffer.length : Int) = cb.maxlen

instance (cb : CIRCULAR_BUFFER) : Decidable (WellFormed cb) := by
  unfold WellFormed; infer_instance

/-! ## Bytes, characters and files -/

/-- An `unsigned char` / `uint8_t` value. -/
abbrev Byte := Fin 256

/-- The `EOF` of `<stdio.h>`. -/
def EOF : Int := -1

/-- Conversion of an `int` to the signed 8-bit `char` (`ch = fgetc(...)`). -/
def toChar (v : Int) : Int := (v + 128) % 256 - 128

/-- Conversion to `uint8_t` / `unsigned char` (`uint8_t byte = ch`, and the
conversion `fputc` applies to its argument). -/
def toUInt8 (c : Int) : Byte :=
  ⟨(c % 256).toNat, by omega⟩

/-- A `FILE` open on a regular file: the bytes of the file and the position
indicator. -/
structure FILE where
  content : List Byte
  pos : Nat
deriving DecidableEq, Repr

/-- The `whence` argument of `fseek`. -/
inductive Whence where
  | SEEK_SET
  | SEEK_CUR
  | SEEK_END
deriving DecidableEq, Repr

/-- The call `fseek(f, off, whence)`.  A seek to a negative position fails
and leaves the position indicator where it was. -/
def fseek (f : FILE) (off : Int) (whence : Whence) : FILE :=
  let base : Int :=
    match whence with
    | .SEEK_SET => 0
    | .SEEK_CUR => f.pos
    | .SEEK_END => f.content.length
  if base + off < 0 then f else { f with pos := (base + off).toNat }

/-- The call `ftell(f)`. -/
def ftell (f : FILE) : Int := f.pos

/-- The call `rewind(f)`. -/
def rewind (f : FILE) : FILE := { f with pos := 0 }

/-- The call `fgetc(f)`: the next byte as a non-negative `int`, or `EOF` at
the end of the file, where the position stays. -/
def fgetc (f : FILE) : Int × FILE :=
  match f.content[f.pos]? with
  | some b => ((b.val : Int), { f with pos := f.pos + 1 })
  | none => (EOF, f)

/-- The call `fputc(c, f)` on a file opened `"w+"`: the byte goes to the
current position, which moves on by one; a position past the end leaves a gap
that reads as zero bytes. -/
def fputc (c : Int) (f : FILE) : FILE :=
  let b := toUInt8 c
  if f.pos < f.content.length then
    { content := f.content.set f.pos b, pos := f.pos + 1 }
  else
    { content := f.content ++ List.replicate (f.pos - f.content.length) 0 ++ [b]
      pos := f.pos + 1 }

/-! ## The log -/

/-- The call `formatString(op, tt, num, off, b, i)`: `snprintf` with size
`len = 55` stores at most 54 characters of the formatted text. -/
def formatString (op tt : String) (num off : Int) (b : Byte) (i : Int) : String :=
  let len := 55
  String.mk ((op ++ " " ++ tt ++ toString num ++ " O" ++ toString off ++ " B" ++
    toString b.val ++ " I" ++ toString i ++ "\n").data.take (len - 1))

/-- One `fputs(formatString(op, tt, num, off, b, i), log_file)`: the arguments
of the call. -/
structure LOG_ENTRY where
  op : String
  tt : String
  num : Int
  off : Int
  b : Byte
  i : Int
deriving DecidableEq, Repr

/-- The text an entry puts into the log file. -/
def LOG_ENTRY.text (e : LOG_ENTRY) : String :=
  formatString e.op e.tt e.num e.off e.b e.i

/-- The content of the log file: the log is only ever appended to. -/
def logText (log : List LOG_ENTRY) : String :=
  String.join (log.map LOG_ENTRY.text)

/-! ## The threads -/

/-- The globals the threads work on: the three files and the buffer. -/
structure State where
  src_file : FILE
  cpy_file : FILE
  log_file : List LOG_ENTRY
  circular_buffer : CIRCULAR_BUFFER
deriving DecidableEq, Repr

/-- What one pass through the body of a `while (1)` loop ends in. -/
inductive Step where
  /-- The thread called `pthread_exit(NULL)`. -/
  | exit (st : State)
  /-- The body reached its end; the loop goes round again. -/
  | next (st : State)
  /-- A call inside the body did not return. -/
  | stuck
deriving DecidableEq, Repr

/-- The loop `while (1) body`, for at most `fuel` passes: the state in which
the thread exits, or `none` when it has not exited by then. -/
def loop (body : State → Step) : Nat → State → Option State
  | 0, _ => none
  | fuel + 1, st =>
    match body st with
    | .exit st' => some st'
    | .next st' => loop body fuel st'
    | .stuck => none

/-- The body of the loop of `inRoutine`. -/
def inBody (t_num : Int) (st : State) : Step :=
  let (c, src) := fgetc st.src_file
  let ch := toChar c
  let byte := toUInt8 ch
  let offst := ftell src
  let log := st.log_file ++ [⟨"read_byte", "PT", t_num, offst, byte, -1⟩]
  if ch = EOF then
    .exit { st with src_file := src, log_file := log }
  else
    let item : BUFFER_ITEM := { data := ch, offset := offst }
    match cbufferPush st.circular_buffer item with
    | none => .stuck
    | some (index, cb) =>
      let log := log ++ [⟨"produce", "PT", t_num, offst, byte, index⟩]
      .next { st with src_file := src, log_file := log, circular_buffer := cb }

/-- The function `inRoutine`, the producer thread with number `t_num`. -/
def inRoutine (t_num : Int) (fuel : Nat) (st : State) : Option State :=
  loop (inBody t_num) fuel { st with src_file := fseek st.src_file 0 .SEEK_SET }

/-- The body of the loop of `outRoutine`. -/
def outBody (t_num : Int) (last_index : Int) (st : State) : Step :=
  match cbufferPop st.circular_buffer with
  | none => .stuck
  | some (index, buffer_item, cb) =>
    let ch := buffer_item.data
    let byte := toUInt8 ch
    let offst := buffer_item.offset
    if offst ≥ last_index then
      .exit { st with circular_buffer := cb }
    else
      let log := st.log_file ++ [⟨"consume", "CT", t_num, offst, byte, index⟩]
      let cpy := fputc ch (fseek st.cpy_file (offst - 1) .SEEK_SET)
      let log := log ++ [⟨"write_byte", "CT", t_num, offst, byte, -1⟩]
      .next { st with cpy_file := cpy, log_file := log, circular_buffer := cb }

/-- The function `outRoutine`, the consumer thread with number `t_num`. -/
def outRoutine (t_num : Int) (fuel : Nat) (st : State) : Option State :=
  let src := fseek st.src_file 0 .SEEK_END
  let last_index := ftell src
  let src := rewind src
  loop (outBody t_num last_index) fuel { st with src_file := src }

/-- The state in which `main` creates the threads: the source opened `"r+"`,
the copy and the log opened `"w+"`, the buffer initialised with
`buffer_size`. -/
def start (source : List Byte) (buffer_size : Int) (mem : Nat → BUFFER_ITEM) : State :=
  { src_file := ⟨source, 0⟩
    cpy_file := ⟨[], 0⟩
    log_file := []
    circular_buffer := cbufferInit buffer_size mem }

/-- A thread of `main`: an `inRoutine` or an `outRoutine` with its number. -/
inductive Task where
  | producer (t_num : Int)
  | consumer (t_num : Int)
deriving DecidableEq, Repr

/-- The threads of `tasks` run one after the other, each one from its start to
its exit within `fuel` passes of its loop. -/
def runTasks (fuel : Nat) : List Task → State → Option State
  | [], st => some st
  | .producer t :: rest, st => (inRoutine t fuel st).bind (runTasks fuel rest)
  | .consumer t :: rest, st => (outRoutine t fuel st).bind (runTasks fuel rest)

/-- One producer and one consumer, both numbered 0, the producer running
to its exit before the consumer starts. -/
def copyRun (fuel : Nat) (source : List Byte) (buffer_size : Int)
    (mem : Nat → BUFFER_ITEM) : Option State :=
  runTasks fuel [.producer 0, .consumer 0] (start source buffer_size mem)

/-! ## Sequences of calls on the buffer -/

/-- A call on the shared buffer. -/
inductive Call where
  | push (value : BUFFER_ITEM)
  | pop
deriving DecidableEq, Repr

/-- The buffer after one call. -/
def call (cb : CIRCULAR_BUFFER) : Call → Option CIRCULAR_BUFFER
  | .push value => (cbufferPush cb value).map fun r => r.2
  | .pop => (cbufferPop cb).map fun r => r.2.2

/-- The buffer after a sequence of calls. -/
def calls (cb : CIRCULAR_BUFFER) : List Call → Option CIRCULAR_BUFFER
  | [] => some cb
  | c :: cs => (call cb c).bind fun cb' => calls cb' cs

/-- The buffers that calls of `cbufferPush` and `cbufferPop` lead to from
`cbufferInit(cb, size)`. -/
def Reachable (size : Int) (cb : CIRCULAR_BUFFER) : Prop :=
  ∃ mem cs, calls (cbufferInit size mem) cs = some cb

/-- Calls of `cbufferPush` with the items of a list, in order: the returned
values and the buffer afterwards. -/
def pushAll (cb : CIRCULAR_BUFFER) : List BUFFER_ITEM → Option (List Int × CIRCULAR_BUFFER)
  | [] => some ([], cb)
  | value :: rest =>
    match cbufferPush cb value with
    | none => none
    | some (r, cb') =>
      match pushAll cb' rest with
      | none => none
      | some (rs, cb'') => some (r :: rs, cb'')

/-- Calls of `cbufferPop`, `k` of them: the returned values with the popped
items, and the buffer afterwards. -/
def popN (cb : CIRCULAR_BUFFER) : Nat → Option (List (Int × BUFFER_ITEM) × CIRCULAR_BUFFER)
  | 0 => some ([], cb)
  | k + 1 =>
    match cbufferPop cb with
    | none => none
    | some (r, value, cb') =>
      match popN cb' k with
      | none => none
      | some (rs, cb'') => some ((r, value) :: rs, cb'')

/-- A buffer together with the bookkeeping of which slots hold an item that
was pushed and has not been popped (`live`), and whether some push has stored
into such a slot (`overwrote`). -/
structure Tracked where
  cb : CIRCULAR_BUFFER
  live : List Bool
  overwrote : Bool
deriving DecidableEq, Repr

/-- The bookkeeping at `cbufferInit`: no slot is live. -/
def Tracked.init (size : Int) (mem : Nat → BUFFER_ITEM) : Tracked :=
  { cb := cbufferInit size mem
    live := List.replicate (cbufferInit size mem).buffer.length false
    overwrote := false }

/-- One call, with the bookkeeping: a push makes the slot at `head` live, a
pop makes the slot at `tail` free. -/
def Tracked.call (t : Tracked) : Call → Option Tracked
  | .push value =>
    match cbufferPush t.cb value with
    | none => none
    | some (_, cb') =>
      some { cb := cb'
             live := t.live.set t.cb.head.toNat true
             overwrote := t.overwrote || t.live.getD t.cb.head.toNat false }
  | .pop =>
    match cbufferPop t.cb with
    | none => none
    | some (_, _, cb') =>
      some { cb := cb'
             live := t.live.set t.cb.tail.toNat false
             overwrote := t.overwrote }

/-- A sequence of calls, with the bookkeeping. -/
def Tracked.calls (t : Tracked) : List Call → Option Tracked
  | [] => some t
  | c :: cs => (t.call c).bind fun t' => t'.calls cs

/-- The number of live items. -/
def Tracked.liveCount (t : Tracked) : Nat := t.live.count true

/-- A sequence of calls that, counting from `depth` items in the buffer,
never pushes onto `size` items and never pops from none. -/
def withinBounds (size : Nat) : Nat → List Call → Bool
  | _, [] => true
  | depth, .push _ :: cs => decide (depth < size) && withinBounds size (depth + 1) cs
  | depth, .pop :: cs => decide (0 < depth) && withinBounds size (depth - 1) cs

/-! ## Notions for the statements about the ring -/

/-- The slot `j` places after slot `t` when `size` slots are in use. -/
def adv (size t j : Int) : Int :=
  if t + j < size then t + j else t + j - size

/-- The values that `k` successive calls return, starting with the cursor at
slot `t`. -/
def ringIdx (size : Int) : Int → Nat → List Int
  | _, 0 => []
  | t, k + 1 => adv size t 1 :: ringIdx size (adv size t 1) k

/-- The shape of every buffer that calls lead to from `cbufferInit(cb, size)`
with `1 ≤ size < 2147483647`: `size + 1` slots, and both cursors among the first `size`
of them. -/
def Ring (size : Int) (cb : CIRCULAR_BUFFER) : Prop :=
  cb.maxlen = size + 1 ∧ (cb.buffer.length : Int) = size + 1 ∧
    0 ≤ cb.head ∧ cb.head < size ∧ 0 ≤ cb.tail ∧ cb.tail < size

/-- What holds of the bookkeeping after any calls: the buffer has the shape
`Ring`, and the last of the `size + 1` slots is never live. -/
def Tracked.Shape (size : Int) (t : Tracked) : Prop :=
  Ring size t.cb ∧ (t.live.length : Int) = size + 1 ∧ t.live[size.toNat]? = some false

/-- What holds in addition while the calls stay within bounds, with `depth`
items in the buffer: the live slots are the `depth` slots from `tail` on,
`head` is the slot after them, and no push has stored into a live slot. -/
def Tracked.Queue (size : Int) (depth : Nat) (t : Tracked) : Prop :=
  (depth : Int) ≤ size ∧ t.cb.head = adv size t.cb.tail depth ∧ t.overwrote = false ∧
    ∀ p : Nat, t.live[p]? = some true ↔ ∃ j : Nat, j < depth ∧ p = (adv size t.cb.tail j).toNat

/-! ## Notions for the statements about the log -/

/-- The line the log format prescribes:
`<event> <kindTag><ordinal> O<offset> B<byteValue> I<index>` and a newline,
the numbers in decimal. -/
def specLine (event kindTag : String) (ordinal offset : Int) (byteValue : Byte)
    (index : Int) : String :=
  event ++ " " ++ kindTag ++ toString ordinal ++ " O" ++ toString offset ++ " B" ++
    toString byteValue.val ++ " I" ++ toString index ++ "\n"

/-- The state a pass through a loop body ends in, if the body returned. -/
def Step.state? : Step → Option State
  | .exit st => some st
  | .next st => some st
  | .stuck => none

/-- The rule for the last field of a log line: `-1` on `read_byte` and
`write_byte` lines. -/
def LOG_ENTRY.IndexRule (e : LOG_ENTRY) : Prop :=
  (e.op = "read_byte" ∨ e.op = "write_byte") → e.i = -1

/-! ## Notions for the statements about a run -/

/-- The items a producer makes of the bytes that follow position `k` of the
source: the byte as a `char`, with the position after it. -/
def itemsFrom : Nat → List Byte → List BUFFER_ITEM
  | _, [] => []
  | k, b :: rest => ⟨toChar b.val, (k : Int) + 1⟩ :: itemsFrom (k + 1) rest

/-- The log entries `entries off b index`, one batch for each of the bytes
that follow position `k`, where `off` is the position after the byte and
`index` is taken from the given list. -/
def perByte (entries : Int → Byte → Int → List LOG_ENTRY) :
    Nat → List Byte → List Int → List LOG_ENTRY
  | k, b :: rest, index :: indexes =>
    entries ((k : Int) + 1) b index ++ perByte entries (k + 1) rest indexes
  | _, _, _ => []

/-- The `read_byte` and `produce` entries of producer `t_num` for the bytes
that follow position `k`, given the values the pushes return. -/
def prodLog (t_num : Int) : Nat → List Byte → List Int → List LOG_ENTRY :=
  perByte fun off b index =>
    [⟨"read_byte", "PT", t_num, off, b, -1⟩, ⟨"produce", "PT", t_num, off, b, index⟩]

/-- The `consume` and `write_byte` entries of consumer `t_num` for the bytes
that follow position `k`, given the values the pops return. -/
def consLog (t_num : Int) : Nat → List Byte → List Int → List LOG_ENTRY :=
  perByte fun off b index =>
    [⟨"consume", "CT", t_num, off, b, index⟩, ⟨"write_byte", "CT", t_num, off, b, -1⟩]

/-- The entries of a log with a given event name and offset. -/
def linesOf (log : List LOG_ENTRY) (op : String) (off : Int) : List LOG_ENTRY :=
  log.filter fun e => e.op = op ∧ e.off = off

/-- The log of a run on an empty source: one `read_byte` entry for each
producer, in the order of the threads, with offset 0 and the value 255 that
`EOF` has as a `uint8_t`. -/
def readLines : List Task → List LOG_ENTRY
  | [] => []
  | .producer t_num :: rest => ⟨"read_byte", "PT", t_num, 0, 255, -1⟩ :: readLines rest
  | .consumer _ :: rest => readLines rest

/-- What holds between the threads of a run on an empty source: both files
are empty, the slots are as `malloc` left them, nothing was pushed, and
`tail` is inside the array. -/
def EmptyRun (size : Int) (mem : Nat → BUFFER_ITEM) (st : State) : Prop :=
  st.src_file = ⟨[], 0⟩ ∧ st.cpy_file = ⟨[], 0⟩ ∧
    st.circular_buffer.buffer = (cbufferInit size mem).buffer ∧
    st.circular_buffer.head = 0 ∧ st.circular_buffer.maxlen = size + 1 ∧
    0 ≤ st.circular_buffer.tail ∧ st.circular_buffer.tail ≤ size

/-! ## Theorems on single calls -/

/-- C2. `cbufferPush` never fails: on a buffer with `0 ≤ head < maxlen` it
returns, stores the item in slot `head`, leaves every other slot, `tail` and
`maxlen` as they were, sets `head` to `head + 1`, or to `0` when
`head + 1 ≥ maxlen - 1`, and returns that new `head` (never a negative
failure code). -/
theorem cbufferPush_spec (cb : CIRCULAR_BUFFER) (value : BUFFER_ITEM)
    (hwf : WellFormed cb) (h0 : 0 ≤ cb.head) (h1 : cb.head < cb.maxlen) :
    ∃ r cb', cbufferPush cb value = some (r, cb') ∧
      r = cb'.head ∧ 0 ≤ r ∧
      cb'.head = (if cb.head + 1 ≥ cb.maxlen - 1 then 0 else cb.head + 1) ∧
      cb'.buffer[cb.head.toNat]? = some value ∧
      (∀ j : Nat, j ≠ cb.head.toNat → cb'.buffer[j]? = cb.buffer[j]?) ∧
      cb'.buffer.length = cb.buffer.length ∧
      cb'.tail = cb.tail ∧ cb'.maxlen = cb.maxlen := by
  unfold WellFormed at hwf
  have hlen : cb.head < (cb.buffer.length : Int) := by omega
  have hnat : cb.head.toNat < cb.buffer.length := by omega
  refine ⟨if cb.head + 1 ≥ cb.maxlen - 1 then 0 else cb.head + 1,
    { cb with
      buffer := cb.buffer.set cb.head.toNat value
      head := if cb.head + 1 ≥ cb.maxlen - 1 then 0 else cb.head + 1 },
    ?_, rfl, ?_, rfl, ?_, ?_, ?_, rfl, rfl⟩
  · simp [cbufferPush, pthread_mutex_lock, h0, hlen]
  · show 0 ≤ (if cb.head + 1 ≥ cb.maxlen - 1 then 0 else cb.head + 1)
    split <;> omega
  · simp [List.getElem?_set, hnat]
  · intro j hj
    simp [List.getElem?_set, Ne.symm hj]
  · simp

/-- Witness of C2 on a three-slot buffer whose `head` is about to wrap. -/
theorem cbufferPush_spec_witness :
    ∃ r cb', cbufferPush ⟨[⟨0, 0⟩, ⟨0, 0⟩, ⟨0, 0⟩], 1, 0, 3⟩ ⟨65, 1⟩ = some (r, cb') ∧
      r = cb'.head ∧ 0 ≤ r ∧
      cb'.head = (if (1 : Int) + 1 ≥ 3 - 1 then 0 else 1 + 1) ∧
      cb'.buffer[(1 : Int).toNat]? = some ⟨65, 1⟩ ∧
      (∀ j : Nat, j ≠ (1 : Int).toNat →
        cb'.buffer[j]? = ([⟨0, 0⟩, ⟨0, 0⟩, ⟨0, 0⟩] : List BUFFER_ITEM)[j]?) ∧
      cb'.buffer.length = ([⟨0, 0⟩, ⟨0, 0⟩, ⟨0, 0⟩] : List BUFFER_ITEM).length ∧
      cb'.tail = 0 ∧ cb'.maxlen = 3 :=
  cbufferPush_spec ⟨[⟨0, 0⟩, ⟨0, 0⟩, ⟨0, 0⟩], 1, 0, 3⟩ ⟨65, 1⟩
    (by decide) (by decide) (by decide)

/-- C3. `cbufferPop` never fails, also when `head = tail`: on a buffer with
`0 ≤ tail < maxlen` it returns the item stored in slot `tail`, leaves the
slots, `head` and `maxlen` as they were, sets `tail` to `tail + 1`, or to `0`
when `tail + 1 ≥ maxlen - 1`, and returns that new `tail` as the index. -/
theorem cbufferPop_spec (cb : CIRCULAR_BUFFER)
    (hwf : WellFormed cb) (h0 : 0 ≤ cb.tail) (h1 : cb.tail < cb.maxlen) :
    ∃ r value cb', cbufferPop cb = some (r, value, cb') ∧
      cb.buffer[cb.tail.toNat]? = some value ∧
      r = cb'.tail ∧ 0 ≤ r ∧
      cb'.tail = (if cb.tail + 1 ≥ cb.maxlen - 1 then 0 else cb.tail + 1) ∧
      cb'.buffer = cb.buffer ∧ cb'.head = cb.head ∧ cb'.maxlen = cb.maxlen := by
  unfold WellFormed at hwf
  have hlen : cb.tail < (cb.buffer.length : Int) := by omega
  have hnat : cb.tail.toNat < cb.buffer.length := by omega
  refine ⟨if cb.tail + 1 ≥ cb.maxlen - 1 then 0 else cb.tail + 1, cb.buffer[cb.tail.toNat],
    { cb with tail := if cb.tail + 1 ≥ cb.maxlen - 1 then 0 else cb.tail + 1 },
    ?_, ?_, rfl, ?_, rfl, rfl, rfl, rfl⟩
  · simp [cbufferPop, pthread_mutex_lock, h0, hlen, List.getElem?_eq_getElem hnat]
  · exact List.getElem?_eq_getElem hnat
  · show 0 ≤ (if cb.tail + 1 ≥ cb.maxlen - 1 then 0 else cb.tail + 1)
    split <;> omega

/-- Witness of C3 on an empty buffer (`head = tail`): the stale slot is
returned. -/
theorem cbufferPop_spec_witness :
    ∃ r value cb', cbufferPop ⟨[⟨7, 7⟩, ⟨8, 8⟩, ⟨9, 9⟩], 1, 1, 3⟩ = some (r, value, cb') ∧
      ([⟨7, 7⟩, ⟨8, 8⟩, ⟨9, 9⟩] : List BUFFER_ITEM)[(1 : Int).toNat]? = some value ∧
      r = cb'.tail ∧ 0 ≤ r ∧
      cb'.tail = (if (1 : Int) + 1 ≥ 3 - 1 then 0 else 1 + 1) ∧
      cb'.buffer = [⟨7, 7⟩, ⟨8, 8⟩, ⟨9, 9⟩] ∧ cb'.head = 1 ∧ cb'.maxlen = 3 :=
  cbufferPop_spec ⟨[⟨7, 7⟩, ⟨8, 8⟩, ⟨9, 9⟩], 1, 1, 3⟩ (by decide) (by decide) (by decide)

/-! ## The ring discipline -/

theorem adv_zero (size t : Int) (h1 : t < size) : adv size t 0 = t := by
  simp [adv, h1]

theorem adv_succ (size t j : Int) (h1 : t < size) (hj0 : 0 ≤ j)
    (hj : j + 1 ≤ size) : adv size (adv size t 1) j = adv size t (j + 1) := by
  unfold adv
  split_ifs <;> omega

theorem adv_range (size t j : Int) (h0 : 0 ≤ t) (h1 : t < size) (hj0 : 0 ≤ j)
    (hj : j ≤ size) : 0 ≤ adv size t j ∧ adv size t j < size := by
  unfold adv
  split_ifs <;> omega

theorem adv_ne (size t i j : Int) (hij : i < j) (hj : j < i + size) : adv size t i ≠ adv size t j := by
  unfold adv
  split_ifs <;> omega

theorem cbufferPush_ring (size : Int) (cb : CIRCULAR_BUFFER) (value : BUFFER_ITEM)
    (h : Ring size cb) :
    cbufferPush cb value =
      some (adv size cb.head 1,
        { cb with buffer := cb.buffer.set cb.head.toNat value, head := adv size cb.head 1 }) := by
  obtain ⟨hmax, hlen, hh0, hh1, -, -⟩ := h
  have hlt : cb.head < (cb.buffer.length : Int) := by omega
  have hadv : (if cb.head + 1 ≥ cb.maxlen - 1 then 0 else cb.head + 1) = adv size cb.head 1 := by
    unfold adv
    split_ifs <;> omega
  simp only [cbufferPush, pthread_mutex_lock, ne_eq, not_true_eq_false, if_false, hh0, hlt,
    and_self, if_true, hadv]

theorem cbufferPop_ring (size : Int) (cb : CIRCULAR_BUFFER) (value : BUFFER_ITEM)
    (h : Ring size cb) (hv : cb.buffer[cb.tail.toNat]? = some value) :
    cbufferPop cb = some (adv size cb.tail 1, value, { cb with tail := adv size cb.tail 1 }) := by
  obtain ⟨hmax, hlen, -, -, ht0, ht1⟩ := h
  have hlt : cb.tail < (cb.buffer.length : Int) := by omega
  have hadv : (if cb.tail + 1 ≥ cb.maxlen - 1 then 0 else cb.tail + 1) = adv size cb.tail 1 := by
    unfold adv
    split_ifs <;> omega
  simp only [cbufferPop, pthread_mutex_lock, ne_eq, not_true_eq_false, if_false, ht0, hlt,
    and_self, if_true, hadv, hv]

theorem ring_slot (size : Int) (cb : CIRCULAR_BUFFER) (h : Ring size cb) (p : Int)
    (hp0 : 0 ≤ p) (hp1 : p < size) : ∃ value, cb.buffer[p.toNat]? = some value := by
  obtain ⟨-, hlen, -⟩ := h
  have : p.toNat < cb.buffer.length := by omega
  exact ⟨cb.buffer[p.toNat], List.getElem?_eq_getElem this⟩

theorem toInt32_eq (v : Int) (h0 : -2147483648 ≤ v) (h1 : v < 2147483648) :
    toInt32 v = v := by
  unfold toInt32
  omega

theorem cbufferInit_eq (size : Int) (mem : Nat → BUFFER_ITEM) (hsize : 0 ≤ size)
    (hmax : size < 2147483647) :
    cbufferInit size mem =
      { maxlen := size + 1
        buffer := (List.range (size + 1).toNat).map mem
        head := 0
        tail := 0 } := by
  simp only [cbufferInit, toInt32_eq (size + 1) (by omega) (by omega)]

/-- At the largest `int` the sum `size + 1` is `-2147483648` and
`cbufferInit` gets no slot; neither a push nor a pop returns on that buffer. -/
theorem cbufferInit_largest_size :
    cbufferInit 2147483647 (fun _ => ⟨0, 0⟩) = ⟨[], 0, 0, -2147483648⟩ ∧
      cbufferPush (cbufferInit 2147483647 fun _ => ⟨0, 0⟩) ⟨65, 1⟩ = none ∧
      cbufferPop (cbufferInit 2147483647 fun _ => ⟨0, 0⟩) = none := by
  decide

theorem ring_init (size : Int) (mem : Nat → BUFFER_ITEM) (hsize : 1 ≤ size)
    (hmax : size < 2147483647) : Ring size (cbufferInit size mem) := by
  rw [cbufferInit_eq size mem (by omega) hmax]
  refine ⟨rfl, ?_, ?_, ?_, ?_, ?_⟩ <;> simp <;> omega

theorem ring_push (size : Int) (cb : CIRCULAR_BUFFER) (value : BUFFER_ITEM) (h : Ring size cb) :
    Ring size { cb with buffer := cb.buffer.set cb.head.toNat value, head := adv size cb.head 1 } := by
  obtain ⟨hmax, hlen, hh0, hh1, ht0, ht1⟩ := h
  have := adv_range size cb.head 1 hh0 hh1 (by omega) (by omega)
  exact ⟨hmax, by simpa using hlen, this.1, this.2, ht0, ht1⟩

theorem ring_pop (size : Int) (cb : CIRCULAR_BUFFER) (h : Ring size cb) :
    Ring size { cb with tail := adv size cb.tail 1 } := by
  obtain ⟨hmax, hlen, hh0, hh1, ht0, ht1⟩ := h
  have := adv_range size cb.tail 1 ht0 ht1 (by omega) (by omega)
  exact ⟨hmax, hlen, hh0, hh1, this.1, this.2⟩

theorem ring_call (size : Int) (cb cb' : CIRCULAR_BUFFER) (c : Call) (h : Ring size cb)
    (hc : call cb c = some cb') : Ring size cb' := by
  cases c with
  | push value =>
    simp only [call, cbufferPush_ring size cb value h, Option.map_some', Option.some.injEq] at hc
    subst hc
    exact ring_push size cb value h
  | pop =>
    obtain ⟨value, hv⟩ := ring_slot size cb h cb.tail h.2.2.2.2.1 h.2.2.2.2.2
    simp only [call, cbufferPop_ring size cb value h hv, Option.map_some',
      Option.some.injEq] at hc
    subst hc
    exact ring_pop size cb h

theorem ring_calls (size : Int) (cs : List Call) (cb cb' : CIRCULAR_BUFFER) (h : Ring size cb)
    (hc : calls cb cs = some cb') : Ring size cb' := by
  induction cs generalizing cb with
  | nil =>
    simp only [calls, Option.some.injEq] at hc
    exact hc ▸ h
  | cons c cs ih =>
    simp only [calls] at hc
    cases hcall : call cb c with
    | none => simp [hcall] at hc
    | some cb1 =>
      simp only [hcall, Option.some_bind] at hc
      exact ih cb1 (ring_call size cb cb1 c h hcall) hc

theorem ring_of_reachable (size : Int) (cb : CIRCULAR_BUFFER) (hsize : 1 ≤ size)
    (hmax : size < 2147483647) (h : Reachable size cb) : Ring size cb := by
  obtain ⟨mem, cs, hcs⟩ := h
  exact ring_calls size cs _ cb (ring_init size mem hsize hmax) hcs

theorem pushAll_ring (size : Int) (items : List BUFFER_ITEM) (cb : CIRCULAR_BUFFER)
    (h : Ring size cb) (hk : (items.length : Int) ≤ size) :
    ∃ cb', pushAll cb items = some (ringIdx size cb.head items.length, cb') ∧
      Ring size cb' ∧ cb'.tail = cb.tail ∧
      cb'.head = adv size cb.head items.length ∧
      (∀ j : Nat, ∀ hj : j < items.length,
        cb'.buffer[(adv size cb.head j).toNat]? = some (items.get ⟨j, hj⟩)) ∧
      (∀ p : Nat, (∀ j : Nat, j < items.length → p ≠ (adv size cb.head j).toNat) →
        cb'.buffer[p]? = cb.buffer[p]?) := by
  induction items generalizing cb with
  | nil =>
    refine ⟨cb, rfl, h, rfl, ?_, ?_, ?_⟩
    · simp [adv_zero size cb.head h.2.2.2.1]
    · intro j hj
      simp at hj
    · intro p _
      rfl
  | cons value rest ih =>
    have hh0 := h.2.2.1
    have hh1 := h.2.2.2.1
    have hlen : (rest.length : Int) + 1 ≤ size := by simpa using hk
    obtain ⟨cb', hpush, hring, htail, hhead, hslots, hframe⟩ :=
      ih { cb with buffer := cb.buffer.set cb.head.toNat value, head := adv size cb.head 1 }
        (ring_push size cb value h) (by omega)
    have hheadNat : cb.head.toNat < cb.buffer.length := by
      have := h.2.1
      omega
    refine ⟨cb', ?_, hring, htail, ?_, ?_, ?_⟩
    · simp only [pushAll, cbufferPush_ring size cb value h, hpush, List.length_cons, ringIdx]
    · rw [hhead]
      simp only [List.length_cons, Nat.cast_add, Nat.cast_one]
      exact adv_succ size cb.head rest.length hh1 (by omega) hlen
    · intro j hj
      cases j with
      | zero =>
        have hfr := hframe cb.head.toNat (by
          intro j hj
          have hne := adv_ne size cb.head 0 ((j : Int) + 1) (by omega) (by omega)
          have hr := adv_range size cb.head ((j : Int) + 1) hh0 hh1 (by omega) (by omega)
          rw [adv_succ size cb.head j hh1 (by omega) (by omega)]
          rw [adv_zero size cb.head hh1] at hne
          omega)
        simp only [Nat.cast_zero, adv_zero size cb.head hh1]
        rw [hfr]
        simp [List.getElem?_set, hheadNat]
      | succ j =>
        have hj' : j < rest.length := by simpa using hj
        have := hslots j hj'
        rw [adv_succ size cb.head j hh1 (by omega) (by omega)] at this
        simpa using this
    · intro p hp
      have hp0 := hp 0 (by simp)
      simp only [Nat.cast_zero, adv_zero size cb.head hh1] at hp0
      rw [hframe p (by
        intro j hj
        have := hp (j + 1) (by simpa using hj)
        rw [adv_succ size cb.head j hh1 (by omega) (by omega)]
        simpa using this)]
      simp [List.getElem?_set, Ne.symm hp0]

theorem popN_ring (size : Int) (items : List BUFFER_ITEM) (cb : CIRCULAR_BUFFER)
    (h : Ring size cb) (hk : (items.length : Int) ≤ size)
    (hslots : ∀ j : Nat, ∀ hj : j < items.length,
      cb.buffer[(adv size cb.tail j).toNat]? = some (items.get ⟨j, hj⟩)) :
    popN cb items.length =
      some ((ringIdx size cb.tail items.length).zip items,
        { cb with tail := adv size cb.tail items.length }) := by
  induction items generalizing cb with
  | nil =>
    simp [popN, ringIdx, adv_zero size cb.tail h.2.2.2.2.2]
  | cons value rest ih =>
    have ht1 := h.2.2.2.2.2
    have hlen : (rest.length : Int) + 1 ≤ size := by simpa using hk
    have hv : cb.buffer[cb.tail.toNat]? = some value := by
      have := hslots 0 (by simp)
      simpa [adv_zero size cb.tail ht1] using this
    have hrest := ih { cb with tail := adv size cb.tail 1 } (ring_pop size cb h) (by omega) (by
      intro j hj
      have := hslots (j + 1) (by simpa using hj)
      rw [adv_succ size cb.tail j ht1 (by omega) (by omega)]
      simpa using this)
    simp only [List.length_cons, popN, cbufferPop_ring size cb value h hv, hrest, ringIdx,
      List.zip_cons_cons]
    congr 3
    simp only [Nat.cast_add, Nat.cast_one]
    exact adv_succ size cb.tail rest.length ht1 (by omega) hlen

theorem ringIdx_length (size : Int) (k : Nat) (t : Int) : (ringIdx size t k).length = k := by
  induction k generalizing t with
  | zero => rfl
  | succ k ih => simp [ringIdx, ih]

/-- C10, as the code has it.  FIFO round trip: for `1 ≤ size < 2147483647`
(so that `size + 1` is an `int`), a buffer reached from
`cbufferInit(cb, size)` with `head = tail`, and `k ≤ size` items, `k` calls of
`cbufferPush` followed by `k` calls of `cbufferPop` all return, the pops give
back the items in the order they were pushed, each pop returns the index that
the push of its item returned, and `head = tail` holds again afterwards. -/
theorem fifo_round_trip (size : Int) (cb : CIRCULAR_BUFFER) (items : List BUFFER_ITEM)
    (hsize : 1 ≤ size) (hmax : size < 2147483647) (hreach : Reachable size cb)
    (hempty : cb.head = cb.tail) (hk : (items.length : Int) ≤ size) :
    ∃ pushed popped cb1 cb2,
      pushAll cb items = some (pushed, cb1) ∧
      popN cb1 items.length = some (popped, cb2) ∧
      popped.map Prod.snd = items ∧
      popped.map Prod.fst = pushed ∧
      cb2.head = cb2.tail := by
  have hring := ring_of_reachable size cb hsize hmax hreach
  obtain ⟨cb1, hpush, hring1, htail, hhead, hslots, -⟩ := pushAll_ring size items cb hring hk
  have hpop := popN_ring size items cb1 hring1 hk (by
    intro j hj
    rw [htail, ← hempty]
    exact hslots j hj)
  refine ⟨_, _, cb1, _, hpush, hpop, ?_, ?_, ?_⟩
  · rw [List.map_snd_zip]
    simp [ringIdx_length]
  · rw [List.map_fst_zip, htail, hempty]
    simp [ringIdx_length]
  · show cb1.head = adv size cb1.tail items.length
    rw [hhead, htail, hempty]

/-- Witness of C10 as amended: `size = 2`, the buffer reached by one push and
one pop (`head = tail = 1`), two items. -/
theorem fifo_round_trip_witness :
    ∃ pushed popped cb1 cb2,
      pushAll ⟨[⟨9, 9⟩, ⟨0, 0⟩, ⟨0, 0⟩], 1, 1, 3⟩ [⟨65, 1⟩, ⟨66, 2⟩] = some (pushed, cb1) ∧
      popN cb1 [(⟨65, 1⟩ : BUFFER_ITEM), ⟨66, 2⟩].length = some (popped, cb2) ∧
      popped.map Prod.snd = [⟨65, 1⟩, ⟨66, 2⟩] ∧
      popped.map Prod.fst = pushed ∧
      cb2.head = cb2.tail :=
  fifo_round_trip 2 ⟨[⟨9, 9⟩, ⟨0, 0⟩, ⟨0, 0⟩], 1, 1, 3⟩ [⟨65, 1⟩, ⟨66, 2⟩] (by decide)
    (by decide) ⟨fun _ => ⟨0, 0⟩, [.push ⟨9, 9⟩, .pop], by decide⟩ (by decide) (by decide)

/-- C10 as stated fails at the largest `int`: `cbufferInit(cb, 2147483647)`
sets `maxlen` to `-2147483648` and gets no slot, so the buffer it leaves
(`head = tail = 0`, reached with no call at all) does not take one item: the
push does not return. -/
theorem round_trip_fails_at_largest_size :
    calls (cbufferInit 2147483647 fun _ => ⟨0, 0⟩) [] = some ⟨[], 0, 0, -2147483648⟩ ∧
      pushAll ⟨[], 0, 0, -2147483648⟩ [⟨65, 1⟩] = none := by
  decide


/-! ## Live items -/

theorem Tracked.call_push (size : Int) (t : Tracked) (value : BUFFER_ITEM)
    (h : Ring size t.cb) :
    t.call (.push value) =
      some { cb := { t.cb with
                     buffer := t.cb.buffer.set t.cb.head.toNat value
                     head := adv size t.cb.head 1 }
             live := t.live.set t.cb.head.toNat true
             overwrote := t.overwrote || t.live.getD t.cb.head.toNat false } := by
  simp only [Tracked.call, cbufferPush_ring size t.cb value h]

theorem Tracked.call_pop (size : Int) (t : Tracked) (h : Ring size t.cb) :
    t.call .pop =
      some { cb := { t.cb with tail := adv size t.cb.tail 1 }
             live := t.live.set t.cb.tail.toNat false
             overwrote := t.overwrote } := by
  obtain ⟨value, hv⟩ := ring_slot size t.cb h t.cb.tail h.2.2.2.2.1 h.2.2.2.2.2
  simp only [Tracked.call, cbufferPop_ring size t.cb value h hv]

theorem Tracked.shape_init (size : Int) (mem : Nat → BUFFER_ITEM) (hsize : 1 ≤ size)
    (hmax : size < 2147483647) : (Tracked.init size mem).Shape size := by
  refine ⟨ring_init size mem hsize hmax, ?_, ?_⟩
  · simp [Tracked.init, cbufferInit_eq size mem (by omega) hmax]
    omega
  · have : size.toNat < (size + 1).toNat := by omega
    simp [Tracked.init, cbufferInit_eq size mem (by omega) hmax, List.getElem?_replicate, this]

theorem Tracked.shape_call (size : Int) (t : Tracked) (c : Call) (h : t.Shape size) :
    ∃ t', t.call c = some t' ∧ t'.Shape size := by
  obtain ⟨hring, hlen, hlast⟩ := h
  obtain ⟨-, -, hh0, hh1, ht0, ht1⟩ := id hring
  cases c with
  | push value =>
    refine ⟨_, Tracked.call_push size t value hring, ring_push size t.cb value hring, ?_, ?_⟩
    · simpa using hlen
    · have : t.cb.head.toNat ≠ size.toNat := by omega
      simpa [List.getElem?_set, this] using hlast
  | pop =>
    refine ⟨_, Tracked.call_pop size t hring, ring_pop size t.cb hring, ?_, ?_⟩
    · simpa using hlen
    · have : t.cb.tail.toNat ≠ size.toNat := by omega
      simpa [List.getElem?_set, this] using hlast

theorem Tracked.shape_calls (size : Int) (cs : List Call) (t : Tracked) (h : t.Shape size) :
    ∃ t', t.calls cs = some t' ∧ t'.Shape size := by
  induction cs generalizing t with
  | nil => exact ⟨t, rfl, h⟩
  | cons c cs ih =>
    obtain ⟨t1, hcall, hshape⟩ := Tracked.shape_call size t c h
    obtain ⟨t', hcalls, hshape'⟩ := ih t1 hshape
    exact ⟨t', by simp [Tracked.calls, hcall, hcalls], hshape'⟩

theorem Tracked.liveCount_le (size : Int) (t : Tracked) (h : t.Shape size) :
    (t.liveCount : Int) ≤ size := by
  obtain ⟨-, hlen, hlast⟩ := h
  have hmem : false ∈ t.live := List.getElem?_mem hlast
  have hle : t.live.count true ≤ t.live.length := List.count_le_length _ _
  have hne : t.live.count true ≠ t.live.length := by
    intro heq
    have := (List.count_eq_length.mp heq) false hmem
    simp at this
  unfold Tracked.liveCount
  omega

theorem adv_add_one (size t d : Int) (h1 : t < size) (hd : d + 1 ≤ size) :
    adv size (adv size t d) 1 = adv size t (d + 1) := by
  unfold adv
  split_ifs <;> omega

theorem Tracked.queue_init (size : Int) (mem : Nat → BUFFER_ITEM) (hsize : 1 ≤ size) :
    (Tracked.init size mem).Queue size 0 := by
  refine ⟨by simpa using (by omega : 0 ≤ size), ?_, rfl, ?_⟩
  · simp [Tracked.init, cbufferInit, adv]
    omega
  · intro p
    simp [Tracked.init, List.getElem?_replicate]

theorem Tracked.queue_push (size : Int) (depth : Nat) (t : Tracked) (value : BUFFER_ITEM)
    (hs : t.Shape size) (hq : t.Queue size depth) (hd : (depth : Int) < size) :
    Tracked.Queue size (depth + 1)
      { cb := { t.cb with
                buffer := t.cb.buffer.set t.cb.head.toNat value
                head := adv size t.cb.head 1 }
        live := t.live.set t.cb.head.toNat true
        overwrote := t.overwrote || t.live.getD t.cb.head.toNat false } := by
  obtain ⟨hring, hlen, -⟩ := hs
  obtain ⟨-, -, hh0, hh1, ht0, ht1⟩ := id hring
  obtain ⟨-, hhead, hover, hlive⟩ := hq
  have hheadNat : t.cb.head.toNat < t.live.length := by omega
  have hfree : t.live[t.cb.head.toNat]? ≠ some true := by
    intro hcon
    obtain ⟨j, hj, hp⟩ := (hlive _).mp hcon
    have hne := adv_ne size t.cb.tail j depth (by omega) (by omega)
    have hr := adv_range size t.cb.tail j ht0 ht1 (by omega) (by omega)
    rw [← hhead] at hne
    omega
  refine ⟨by push_cast; omega, ?_, ?_, ?_⟩
  · show adv size t.cb.head 1 = adv size t.cb.tail ((depth + 1 : Nat) : Int)
    rw [hhead]
    push_cast
    exact adv_add_one size t.cb.tail depth ht1 (by omega)
  · show (t.overwrote || t.live.getD t.cb.head.toNat false) = false
    rw [hover, List.getD_eq_getElem?_getD]
    cases hval : t.live[t.cb.head.toNat]? with
    | none => rfl
    | some b =>
      cases b with
      | false => rfl
      | true => exact absurd hval hfree
  · intro p
    show (t.live.set t.cb.head.toNat true)[p]? = some true ↔ _
    rw [List.getElem?_set]
    constructor
    · intro hp
      by_cases hph : t.cb.head.toNat = p
      · exact ⟨depth, by omega, by rw [← hhead]; exact hph.symm⟩
      · rw [if_neg hph] at hp
        obtain ⟨j, hj, hpj⟩ := (hlive p).mp hp
        exact ⟨j, by omega, hpj⟩
    · rintro ⟨j, hj, hpj⟩
      by_cases hph : t.cb.head.toNat = p
      · rw [if_pos hph, if_pos hheadNat]
      · rw [if_neg hph]
        refine (hlive p).mpr ⟨j, ?_, hpj⟩
        by_contra hjd
        have : j = depth := by omega
        subst this
        rw [← hhead] at hpj
        exact hph hpj.symm

theorem Tracked.queue_pop (size : Int) (depth : Nat) (t : Tracked)
    (hs : t.Shape size) (hq : t.Queue size (depth + 1)) :
    Tracked.Queue size depth
      { cb := { t.cb with tail := adv size t.cb.tail 1 }
        live := t.live.set t.cb.tail.toNat false
        overwrote := t.overwrote } := by
  obtain ⟨hring, hlen, -⟩ := hs
  obtain ⟨-, -, hh0, hh1, ht0, ht1⟩ := id hring
  obtain ⟨hdepth, hhead, hover, hlive⟩ := hq
  push_cast at hdepth
  refine ⟨by omega, ?_, hover, ?_⟩
  · show t.cb.head = adv size (adv size t.cb.tail 1) depth
    rw [hhead, adv_succ size t.cb.tail depth ht1 (by omega) hdepth]
    push_cast
    rfl
  · intro p
    show (t.live.set t.cb.tail.toNat false)[p]? = some true ↔
      ∃ j : Nat, j < depth ∧ p = (adv size (adv size t.cb.tail 1) j).toNat
    rw [List.getElem?_set]
    constructor
    · intro hp
      by_cases hpt : t.cb.tail.toNat = p
      · rw [if_pos hpt] at hp
        split at hp <;> simp at hp
      · rw [if_neg hpt] at hp
        obtain ⟨j, hj, hpj⟩ := (hlive p).mp hp
        cases j with
        | zero =>
          simp only [Nat.cast_zero, adv_zero size t.cb.tail ht1] at hpj
          exact absurd hpj.symm hpt
        | succ j =>
          refine ⟨j, by omega, ?_⟩
          rw [adv_succ size t.cb.tail j ht1 (by omega) (by omega)]
          simpa using hpj
    · rintro ⟨j, hj, hpj⟩
      rw [adv_succ size t.cb.tail j ht1 (by omega) (by omega)] at hpj
      have hne := adv_ne size t.cb.tail 0 ((j : Int) + 1) (by omega) (by omega)
      have hr := adv_range size t.cb.tail ((j : Int) + 1) ht0 ht1 (by omega) (by omega)
      rw [adv_zero size t.cb.tail ht1] at hne
      have hpt : t.cb.tail.toNat ≠ p := by omega
      rw [if_neg hpt]
      exact (hlive p).mpr ⟨j + 1, by omega, by simpa using hpj⟩

theorem Tracked.queue_calls (size : Int) (cs : List Call) (depth : Nat) (t t' : Tracked)
    (hs : t.Shape size) (hq : t.Queue size depth)
    (hb : withinBounds size.toNat depth cs = true) (hc : t.calls cs = some t') :
    t'.overwrote = false := by
  induction cs generalizing depth t with
  | nil =>
    simp only [Tracked.calls, Option.some.injEq] at hc
    exact hc ▸ hq.2.2.1
  | cons c cs ih =>
    obtain ⟨t1, hcall, hshape⟩ := Tracked.shape_call size t c hs
    simp only [Tracked.calls, hcall, Option.some_bind] at hc
    cases c with
    | push value =>
      simp only [withinBounds, Bool.and_eq_true, decide_eq_true_eq] at hb
      have hd : (depth : Int) < size := by omega
      rw [Tracked.call_push size t value hs.1, Option.some.injEq] at hcall
      exact ih (depth + 1) t1 hshape (hcall ▸ Tracked.queue_push size depth t value hs hq hd)
        hb.2 hc
    | pop =>
      simp only [withinBounds, Bool.and_eq_true, decide_eq_true_eq] at hb
      obtain ⟨d, rfl⟩ : ∃ d, depth = d + 1 := ⟨depth - 1, by omega⟩
      rw [Tracked.call_pop size t hs.1, Option.some.injEq] at hcall
      exact ih d t1 hshape (hcall ▸ Tracked.queue_pop size d t hs hq)
        (by simpa using hb.2) hc

/-- C4, as the code has it.  From `cbufferInit(cb, size)` with
`1 ≤ size < 2147483647` (so that `size + 1` is an `int`),
every sequence of `cbufferPush` and `cbufferPop` calls returns, and at most
`size = maxlen - 1` slots hold a live item afterwards (the last slot is never
used).  A push stores into a live slot only after the calls have left the
bounds: as long as no push comes on top of `size` items and no pop on none, no
push overwrites an item that was pushed and not yet popped. -/
theorem live_items_bounded (size : Int) (mem : Nat → BUFFER_ITEM) (cs : List Call)
    (hsize : 1 ≤ size) (hmax : size < 2147483647) :
    ∃ t, (Tracked.init size mem).calls cs = some t ∧
      (t.liveCount : Int) ≤ t.cb.maxlen - 1 ∧
      (withinBounds size.toNat 0 cs = true → t.overwrote = false) := by
  obtain ⟨t, hcalls, hshape⟩ :=
    Tracked.shape_calls size cs _ (Tracked.shape_init size mem hsize hmax)
  refine ⟨t, hcalls, ?_, fun hb => ?_⟩
  · have := Tracked.liveCount_le size t hshape
    have hmax := hshape.1.1
    omega
  · exact Tracked.queue_calls size cs 0 _ t (Tracked.shape_init size mem hsize hmax)
      (Tracked.queue_init size mem hsize) hb hcalls

/-- Witness of C4 as amended: `size = 2`, two pushes and a pop. -/
theorem live_items_bounded_witness :
    ∃ t, (Tracked.init 2 fun _ => ⟨0, 0⟩).calls [.push ⟨65, 1⟩, .push ⟨66, 2⟩, .pop] = some t ∧
      (t.liveCount : Int) ≤ t.cb.maxlen - 1 ∧
      (withinBounds (2 : Int).toNat 0 [.push ⟨65, 1⟩, .push ⟨66, 2⟩, .pop] = true →
        t.overwrote = false) :=
  live_items_bounded 2 (fun _ => ⟨0, 0⟩) [.push ⟨65, 1⟩, .push ⟨66, 2⟩, .pop] (by decide)
    (by decide)

/-- C4 as stated fails: with `size = 1` the second of two pushes stores into
slot 0, which holds the first item, not yet popped. -/
theorem push_overwrites_live_item :
    (Tracked.init 1 fun _ => ⟨0, 0⟩).calls [.push ⟨65, 1⟩, .push ⟨66, 2⟩] =
      some { cb := ⟨[⟨66, 2⟩, ⟨0, 0⟩], 0, 0, 2⟩, live := [true, false], overwrote := true } := by
  decide


/-! ## The log format -/

theorem toString_nat_length (n e : Nat) (he : 0 < e) (h : n < 10 ^ e) :
    (toString n).length ≤ e :=
  Nat.repr_length n e he h

theorem toString_int_length (n : Int) (e : Nat) (he : 0 < e) (h0 : -1 ≤ n) (h : n < 10 ^ e) :
    (toString n).length ≤ max e 2 := by
  cases n with
  | ofNat m =>
    have hm : m < 10 ^ e := by
      have h' : ((m : Nat) : Int) < ((10 ^ e : Nat) : Int) := by
        push_cast
        exact h
      exact_mod_cast h'
    have := toString_nat_length m e he hm
    show (toString m).length ≤ max e 2
    omega
  | negSucc m =>
    have hm : m = 0 := by
      have := Int.negSucc_lt_zero m
      have h1 : Int.negSucc m = -(m + 1 : Int) := rfl
      omega
    subst hm
    have : (toString (Int.negSucc 0)).length = 2 := by decide
    omega

theorem formatString_eq_specLine (op tt : String) (num off : Int) (b : Byte) (i : Int)
    (hlen : (specLine op tt num off b i).length ≤ 54) :
    formatString op tt num off b i = specLine op tt num off b i := by
  unfold formatString
  show String.mk ((specLine op tt num off b i).data.take 54) = _
  have hdata : (specLine op tt num off b i).data.length ≤ 54 := hlen
  rw [List.take_of_length_le hdata]

theorem specLine_length (op tt : String) (num off : Int) (b : Byte) (i : Int) :
    (specLine op tt num off b i).length =
      op.length + tt.length + (toString num).length + (toString off).length +
        (toString b.val).length + (toString i).length + 8 := by
  simp only [specLine, String.length_append]
  have h1 : (" " : String).length = 1 := by decide
  have h2 : (" O" : String).length = 2 := by decide
  have h3 : (" B" : String).length = 2 := by decide
  have h4 : (" I" : String).length = 2 := by decide
  have h5 : ("\n" : String).length = 1 := by decide
  omega

/-- C8, as the code has it.  For every event name in `read_byte`, `produce`,
`consume`, `write_byte`, kind tag in `PT`, `CT` and byte value, `formatString`
returns the first 54 characters of the line
`<event> <kindTag><ordinal> O<offset> B<byteValue> I<index>` (decimal numbers,
one closing newline), hence exactly that line whenever it has at most 54
characters, which is so for every ordinal in `0 .. 99999`, offset in
`0 .. 10^16 - 1` and index in `-1 .. 2^31 - 1`; and every `read_byte` or
`write_byte` line that a pass of `inRoutine` or `outRoutine` adds to the log
has index `-1`. -/
theorem formatString_spec (op tt : String) (num off : Int) (b : Byte) (i : Int)
    (hop : op ∈ ["read_byte", "produce", "consume", "write_byte"])
    (htt : tt ∈ ["PT", "CT"]) :
    (formatString op tt num off b i).data = (specLine op tt num off b i).data.take 54 ∧
      ((specLine op tt num off b i).length ≤ 54 →
        formatString op tt num off b i = specLine op tt num off b i) ∧
      (0 ≤ num → num < 100000 → 0 ≤ off → off < 10 ^ 16 → -1 ≤ i → i < 2 ^ 31 →
        (specLine op tt num off b i).length ≤ 54) ∧
      (∀ (t_num : Int) (st st' : State), (inBody t_num st).state? = some st' →
        ∃ added, st'.log_file = st.log_file ++ added ∧ ∀ e ∈ added, e.IndexRule) ∧
      (∀ (t_num last_index : Int) (st st' : State),
        (outBody t_num last_index st).state? = some st' →
        ∃ added, st'.log_file = st.log_file ++ added ∧ ∀ e ∈ added, e.IndexRule) := by
  refine ⟨rfl, formatString_eq_specLine op tt num off b i, ?_, ?_, ?_⟩
  · intro hnum0 hnum hoff0 hoff hi0 hi
    rw [specLine_length]
    have hopl : op.length ≤ 10 := by
      simp only [List.mem_cons, List.mem_singleton, List.not_mem_nil, or_false] at hop
      rcases hop with rfl | rfl | rfl | rfl <;> decide
    have httl : tt.length = 2 := by
      simp only [List.mem_cons, List.mem_singleton, List.not_mem_nil, or_false] at htt
      rcases htt with rfl | rfl <;> decide
    have h1 := toString_int_length num 5 (by decide) (by omega) (by norm_num; omega)
    have h2 := toString_int_length off 16 (by decide) (by omega) (by simpa using hoff)
    have h3 := toString_nat_length b.val 3 (by decide) (by have := b.isLt; omega)
    have h4 := toString_int_length i 10 (by decide) hi0 (by norm_num at hi ⊢; omega)
    simp only [Nat.reduceLeDiff, max_eq_left] at h1 h2 h4
    omega
  · intro t_num st st' h
    unfold inBody at h
    simp only at h
    split at h
    · simp only [Step.state?, Option.some.injEq] at h
      subst h
      exact ⟨_, rfl, by simp [LOG_ENTRY.IndexRule]⟩
    · split at h
      · simp [Step.state?] at h
      · simp only [Step.state?, Option.some.injEq] at h
        subst h
        refine ⟨_, List.append_assoc _ _ _, ?_⟩
        intro e he
        simp only [List.singleton_append, List.mem_cons, List.mem_singleton,
          List.not_mem_nil, or_false] at he
        rcases he with rfl | rfl
        · simp [LOG_ENTRY.IndexRule]
        · simp [LOG_ENTRY.IndexRule]
  · intro t_num last_index st st' h
    unfold outBody at h
    split at h
    · simp [Step.state?] at h
    · simp only at h
      split at h
      · simp only [Step.state?, Option.some.injEq] at h
        subst h
        exact ⟨[], by simp, by simp⟩
      · simp only [Step.state?, Option.some.injEq] at h
        subst h
        refine ⟨_, List.append_assoc _ _ _, ?_⟩
        intro e he
        simp only [List.singleton_append, List.mem_cons, List.mem_singleton,
          List.not_mem_nil, or_false] at he
        rcases he with rfl | rfl
        · simp [LOG_ENTRY.IndexRule]
        · simp [LOG_ENTRY.IndexRule]

/-- Witness of C8 as amended: a `write_byte` line of consumer 3. -/
theorem formatString_spec_witness :
    formatString "write_byte" "CT" 3 12 65 (-1) = "write_byte CT3 O12 B65 I-1\n" :=
  match formatString_spec "write_byte" "CT" 3 12 65 (-1) (by decide) (by decide) with
  | ⟨_, hline, hshort, _, _⟩ =>
    (hline (hshort (by decide) (by decide) (by decide) (by decide) (by decide)
      (by decide))).trans (by decide)

set_option maxRecDepth 8000 in
/-- C8 as stated fails: with the largest `int` ordinal and index and the
largest `long` offset the line has 59 characters; `formatString` returns its
first 54, without the end of the index and without the newline. -/
theorem formatString_truncates :
    formatString "produce" "PT" 2147483647 9223372036854775807 255 2147483647 =
        "produce PT2147483647 O9223372036854775807 B255 I214748" ∧
      specLine "produce" "PT" 2147483647 9223372036854775807 255 2147483647 =
        "produce PT2147483647 O9223372036854775807 B255 I2147483647\n" := by
  decide


/-! ## One pass of the consumer -/

theorem toChar_ne_EOF (b : Byte) (hb : b ≠ 255) : toChar b.val ≠ EOF := by
  have h1 : b.val ≠ 255 := fun h => hb (Fin.ext h)
  have h2 := b.isLt
  unfold toChar EOF
  omega

theorem toUInt8_toChar (b : Byte) : toUInt8 (toChar b.val) = b := by
  apply Fin.ext
  have h2 := b.isLt
  show (toChar b.val % 256).toNat = b.val
  unfold toChar
  omega

theorem fgetc_at (pre rest : List Byte) (b : Byte) :
    fgetc ⟨pre ++ b :: rest, pre.length⟩ =
      ((b.val : Int), ⟨pre ++ b :: rest, pre.length + 1⟩) := by
  have h : (pre ++ b :: rest)[pre.length]? = some b := by
    rw [List.getElem?_append_right (le_refl _)]
    simp
  simp only [fgetc, h]

theorem fgetc_end (content : List Byte) :
    fgetc ⟨content, content.length⟩ = (EOF, ⟨content, content.length⟩) := by
  simp [fgetc]

theorem inBody_end (t_num : Int) (st : State) (content : List Byte)
    (hsrc : st.src_file = ⟨content, content.length⟩) :
    inBody t_num st = .exit { st with
      log_file := st.log_file ++ [⟨"read_byte", "PT", t_num, content.length, 255, -1⟩] } := by
  have h1 : toChar EOF = EOF := by decide
  have h2 : toUInt8 EOF = 255 := by decide
  cases st with
  | mk src cpy log cb =>
    simp only at hsrc
    subst hsrc
    simp [inBody, fgetc_end, h1, h2, ftell]

theorem inBody_byte (t_num size : Int) (st : State) (pre rest : List Byte) (b : Byte)
    (hsrc : st.src_file = ⟨pre ++ b :: rest, pre.length⟩) (hb : b ≠ 255)
    (hring : Ring size st.circular_buffer) :
    inBody t_num st = .next
      { src_file := ⟨pre ++ b :: rest, pre.length + 1⟩
        cpy_file := st.cpy_file
        log_file := st.log_file ++
          [⟨"read_byte", "PT", t_num, (pre.length : Int) + 1, b, -1⟩,
           ⟨"produce", "PT", t_num, (pre.length : Int) + 1, b,
             adv size st.circular_buffer.head 1⟩]
        circular_buffer := { st.circular_buffer with
          buffer := st.circular_buffer.buffer.set st.circular_buffer.head.toNat
            ⟨toChar b.val, (pre.length : Int) + 1⟩
          head := adv size st.circular_buffer.head 1 } } := by
  cases st with
  | mk src cpy log cb =>
    simp only at hsrc hring
    subst hsrc
    simp [inBody, fgetc_at, toChar_ne_EOF b hb, toUInt8_toChar, ftell,
      cbufferPush_ring size cb _ hring]

theorem itemsFrom_length (k : Nat) (rest : List Byte) :
    (itemsFrom k rest).length = rest.length := by
  induction rest generalizing k with
  | nil => rfl
  | cons b rest ih => simp [itemsFrom, ih]

theorem inLoop_run (t_num size : Int) (rest : List Byte) (pre : List Byte) (k : Nat)
    (st : State) (hk : k = pre.length) (hsrc : st.src_file = ⟨pre ++ rest, k⟩)
    (hff : ∀ b ∈ rest, b ≠ 255) (hring : Ring size st.circular_buffer)
    (hlen : (rest.length : Int) ≤ size) :
    ∃ cb', pushAll st.circular_buffer (itemsFrom k rest) =
        some (ringIdx size st.circular_buffer.head rest.length, cb') ∧
      loop (inBody t_num) (rest.length + 1) st = some
        { src_file := ⟨pre ++ rest, (pre ++ rest).length⟩
          cpy_file := st.cpy_file
          log_file := st.log_file ++
            prodLog t_num k rest (ringIdx size st.circular_buffer.head rest.length) ++
            [⟨"read_byte", "PT", t_num, ((pre ++ rest).length : Nat), 255, -1⟩]
          circular_buffer := cb' } := by
  induction rest generalizing pre k st with
  | nil =>
    refine ⟨st.circular_buffer, rfl, ?_⟩
    subst hk
    simp only [List.append_nil] at hsrc ⊢
    simp only [List.length_nil, zero_add, loop, inBody_end t_num st pre hsrc, prodLog, perByte]
    simp [hsrc]
  | cons b rest ih =>
    subst hk
    have hb : b ≠ 255 := hff b (by simp)
    have hlen' : (rest.length : Int) + 1 ≤ size := by simpa using hlen
    have hstep := inBody_byte t_num size st pre rest b hsrc hb hring
    obtain ⟨cb', hpush, hloop⟩ := ih (pre ++ [b]) (pre.length + 1)
      { src_file := ⟨pre ++ b :: rest, pre.length + 1⟩
        cpy_file := st.cpy_file
        log_file := st.log_file ++
          [⟨"read_byte", "PT", t_num, (pre.length : Int) + 1, b, -1⟩,
           ⟨"produce", "PT", t_num, (pre.length : Int) + 1, b,
             adv size st.circular_buffer.head 1⟩]
        circular_buffer := { st.circular_buffer with
          buffer := st.circular_buffer.buffer.set st.circular_buffer.head.toNat
            ⟨toChar b.val, (pre.length : Int) + 1⟩
          head := adv size st.circular_buffer.head 1 } }
      (by simp) (by simp) (fun b' hb' => hff b' (by simp [hb']))
      (ring_push size st.circular_buffer ⟨toChar b.val, (pre.length : Int) + 1⟩ hring)
      (by omega)
    refine ⟨cb', ?_, ?_⟩
    · simp only [itemsFrom, pushAll, cbufferPush_ring size st.circular_buffer _ hring,
        List.length_cons, ringIdx]
      simp only at hpush
      rw [hpush]
    · rw [List.length_cons, loop, hstep]
      simp only
      rw [hloop]
      simp [prodLog, perByte, ringIdx]

/-! ## The consumer -/

theorem outBody_exit (t_num last_index : Int) (st : State) (index : Int)
    (item : BUFFER_ITEM) (cb' : CIRCULAR_BUFFER)
    (hpop : cbufferPop st.circular_buffer = some (index, item, cb'))
    (h : item.offset ≥ last_index) :
    outBody t_num last_index st = .exit { st with circular_buffer := cb' } := by
  simp [outBody, hpop, h]

theorem outBody_next (t_num last_index : Int) (st : State) (index : Int)
    (item : BUFFER_ITEM) (cb' : CIRCULAR_BUFFER)
    (hpop : cbufferPop st.circular_buffer = some (index, item, cb'))
    (h : item.offset < last_index) :
    outBody t_num last_index st = .next
      { st with
        cpy_file := fputc item.data (fseek st.cpy_file (item.offset - 1) .SEEK_SET)
        log_file := st.log_file ++
          [⟨"consume", "CT", t_num, item.offset, toUInt8 item.data, index⟩,
           ⟨"write_byte", "CT", t_num, item.offset, toUInt8 item.data, -1⟩]
        circular_buffer := cb' } := by
  have h' : ¬ item.offset ≥ last_index := by omega
  simp [outBody, hpop, h']

theorem fseek_set_nat (f : FILE) (k : Nat) :
    fseek f ((k : Int) + 1 - 1) .SEEK_SET = { f with pos := k } := by
  have h : ¬ ((k : Int) + 1 - 1 < 0) := by omega
  unfold fseek
  simp only [zero_add, h, if_false]
  simp

theorem fputc_append (c : Int) (pre : List Byte) :
    fputc c ⟨pre, pre.length⟩ = ⟨pre ++ [toUInt8 c], pre.length + 1⟩ := by
  simp [fputc]

theorem outLoop_run (t_num size last_index : Int) (bytes : List Byte) (k : Nat)
    (pre : List Byte) (final : BUFFER_ITEM) (st : State)
    (hk : k = pre.length) (hcpy : st.cpy_file.content = pre)
    (hring : Ring size st.circular_buffer)
    (hlen : (bytes.length : Int) + 1 ≤ size)
    (hslots : ∀ (j : Nat) (b : Byte), bytes[j]? = some b →
      st.circular_buffer.buffer[(adv size st.circular_buffer.tail j).toNat]? =
        some ⟨toChar b.val, (k : Int) + j + 1⟩)
    (hfinal : st.circular_buffer.buffer[
      (adv size st.circular_buffer.tail bytes.length).toNat]? = some final)
    (hoff : final.offset ≥ last_index)
    (hlast : (k : Int) + bytes.length < last_index) :
    ∃ st', loop (outBody t_num last_index) (bytes.length + 1) st = some st' ∧
      st'.src_file = st.src_file ∧
      st'.cpy_file.content = pre ++ bytes ∧
      st'.log_file = st.log_file ++
        consLog t_num k bytes (ringIdx size st.circular_buffer.tail bytes.length) ∧
      st'.circular_buffer = { st.circular_buffer with
        tail := adv size st.circular_buffer.tail (bytes.length + 1) } := by
  induction bytes generalizing k pre st with
  | nil =>
    have ht1 := hring.2.2.2.2.2
    simp only [List.length_nil, Nat.cast_zero, adv_zero size _ ht1] at hfinal
    have hpop := cbufferPop_ring size st.circular_buffer final hring hfinal
    refine ⟨{ st with circular_buffer :=
        { st.circular_buffer with tail := adv size st.circular_buffer.tail 1 } }, ?_, rfl, ?_, ?_, ?_⟩
    · simp only [List.length_nil, zero_add, loop,
        outBody_exit t_num last_index st _ final _ hpop hoff]
    · simpa using hcpy
    · simp [consLog, perByte]
    · simp
  | cons b rest ih =>
    subst hk
    have ht1 := hring.2.2.2.2.2
    have hlen' : (rest.length : Int) + 1 + 1 ≤ size := by simpa using hlen
    have hv := hslots 0 b (by simp)
    simp only [Nat.cast_zero, adv_zero size _ ht1, add_zero] at hv
    have hpop := cbufferPop_ring size st.circular_buffer _ hring hv
    have hlt : (⟨toChar b.val, (pre.length : Int) + 1⟩ : BUFFER_ITEM).offset < last_index := by
      show (pre.length : Int) + 1 < last_index
      simp only [List.length_cons, Nat.cast_add, Nat.cast_one] at hlast
      omega
    have hstep := outBody_next t_num last_index st _ _ _ hpop hlt
    simp only [fseek_set_nat, toUInt8_toChar] at hstep
    have hfile : fputc (toChar b.val) { st.cpy_file with pos := pre.length } =
        ⟨pre ++ [b], pre.length + 1⟩ := by
      rw [← toUInt8_toChar b, ← fputc_append, toUInt8_toChar]
      simp [hcpy]
    rw [hfile] at hstep
    obtain ⟨st', hloop, hsrc', hcpy', hlog', hcb'⟩ := ih (pre.length + 1) (pre ++ [b])
      { st with
        cpy_file := ⟨pre ++ [b], pre.length + 1⟩
        log_file := st.log_file ++
          [⟨"consume", "CT", t_num, (pre.length : Int) + 1, b, adv size st.circular_buffer.tail 1⟩,
           ⟨"write_byte", "CT", t_num, (pre.length : Int) + 1, b, -1⟩]
        circular_buffer := { st.circular_buffer with tail := adv size st.circular_buffer.tail 1 } }
      (by simp) rfl (ring_pop size st.circular_buffer hring) (by omega)
      (by
        intro j b' hb'
        have hj : j < rest.length := (List.getElem?_eq_some.mp hb').1
        have := hslots (j + 1) b' (by simpa using hb')
        push_cast at this
        simp only
        rw [adv_succ size _ j ht1 (by omega) (by omega), this]
        simp only [Nat.cast_add, Nat.cast_one, Option.some.injEq, BUFFER_ITEM.mk.injEq, true_and]
        omega)
      (by
        simp only
        rw [adv_succ size _ rest.length ht1 (by omega) (by omega)]
        simpa using hfinal)
      (by
        simp only [List.length_cons, Nat.cast_add, Nat.cast_one] at hlast ⊢
        omega)
    refine ⟨st', ?_, hsrc', ?_, ?_, ?_⟩
    · rw [List.length_cons, loop, hstep]
      exact hloop
    · simpa using hcpy'
    · rw [hlog']
      simp [consLog, perByte, ringIdx]
    · rw [hcb']
      simp only [List.length_cons, Nat.cast_add, Nat.cast_one]
      rw [adv_succ size _ (rest.length + 1) ht1 (by omega) (by omega)]


/-! ## A producer followed by a consumer -/

theorem loop_mono (body : State → Step) (fuel fuel' : Nat) (st st' : State)
    (h : loop body fuel st = some st') (hle : fuel ≤ fuel') : loop body fuel' st = some st' := by
  induction fuel generalizing fuel' st with
  | zero => simp [loop] at h
  | succ fuel ih =>
    obtain ⟨f, rfl⟩ : ∃ f, fuel' = f + 1 := ⟨fuel' - 1, by omega⟩
    simp only [loop] at h ⊢
    cases hb : body st with
    | exit st1 => simpa [hb] using h
    | next st1 =>
      simp only [hb] at h ⊢
      exact ih f st1 h (by omega)
    | stuck => simp [hb] at h

theorem itemsFrom_getElem? (k : Nat) (bytes : List Byte) (j : Nat) (b : Byte)
    (h : bytes[j]? = some b) :
    (itemsFrom k bytes)[j]? = some ⟨toChar b.val, (k : Int) + j + 1⟩ := by
  induction bytes generalizing k j with
  | nil => simp at h
  | cons b0 rest ih =>
    cases j with
    | zero =>
      simp only [List.getElem?_cons_zero, Option.some.injEq] at h
      subst h
      simp [itemsFrom]
    | succ j =>
      simp only [List.getElem?_cons_succ] at h
      simp only [itemsFrom, List.getElem?_cons_succ, ih (k + 1) j h]
      simp only [Nat.cast_add, Nat.cast_one, Option.some.injEq, BUFFER_ITEM.mk.injEq, true_and]
      omega

theorem copyRun_run (d : List Byte) (l : Byte) (size : Int) (mem : Nat → BUFFER_ITEM)
    (fuel : Nat) (hff : ∀ b ∈ d ++ [l], b ≠ 255) (hsize : (d.length : Int) + 1 ≤ size)
    (hmax : size < 2147483647) (hfuel : d.length + 2 ≤ fuel) :
    ∃ st', copyRun fuel (d ++ [l]) size mem = some st' ∧
      st'.cpy_file.content = d ∧
      st'.log_file =
        prodLog 0 0 (d ++ [l]) (ringIdx size 0 (d.length + 1)) ++
          [⟨"read_byte", "PT", 0, (d.length : Int) + 1, 255, -1⟩] ++
          consLog 0 0 d (ringIdx size 0 d.length) := by
  have hring0 := ring_init size mem (by omega) hmax
  have hlen : ((d ++ [l]).length : Int) ≤ size := by simpa using hsize
  -- the producer
  obtain ⟨cb1, hpush, hin⟩ := inLoop_run 0 size (d ++ [l]) [] 0
    (start (d ++ [l]) size mem) rfl rfl hff hring0 hlen
  obtain ⟨cb1', hpush', hring1, htail1, -, hslots1, -⟩ :=
    pushAll_ring size (itemsFrom 0 (d ++ [l])) (cbufferInit size mem) hring0
      (by simpa [itemsFrom_length] using hsize)
  have hcb : cb1' = cb1 := by
    have h1 : pushAll (cbufferInit size mem) (itemsFrom 0 (d ++ [l])) = _ := hpush
    rw [hpush'] at h1
    simp only [Option.some.injEq, Prod.mk.injEq] at h1
    exact h1.2
  subst hcb
  have hslot : ∀ (j : Nat) (b : Byte), (d ++ [l])[j]? = some b →
      cb1'.buffer[(adv size 0 j).toNat]? = some ⟨toChar b.val, (j : Int) + 1⟩ := by
    intro j b hb
    have hitem := itemsFrom_getElem? 0 (d ++ [l]) j b hb
    have hj : j < (itemsFrom 0 (d ++ [l])).length := (List.getElem?_eq_some.mp hitem).1
    have := hslots1 j hj
    rw [List.get_eq_getElem, ← List.getElem?_eq_getElem hj, hitem] at this
    simpa [cbufferInit] using this
  have hin' : inRoutine 0 fuel (start (d ++ [l]) size mem) = some _ :=
    loop_mono _ _ fuel _ _ hin (by simp; omega)
  -- the consumer
  obtain ⟨st', hout, -, hcpy, hlog, -⟩ := outLoop_run 0 size ((d ++ [l]).length : Nat) d 0 []
    ⟨toChar l.val, (d.length : Int) + 1⟩
    { src_file := ⟨d ++ [l], 0⟩
      cpy_file := ⟨[], 0⟩
      log_file := [] ++ prodLog 0 0 (d ++ [l]) (ringIdx size 0 (d ++ [l]).length) ++
        [⟨"read_byte", "PT", 0, ((d ++ [l]).length : Nat), 255, -1⟩]
      circular_buffer := cb1' }
    rfl rfl hring1 hsize
    (by
      intro j b hb
      have hj : j < d.length := (List.getElem?_eq_some.mp hb).1
      have := hslot j b (by rw [List.getElem?_append_left hj]; exact hb)
      simpa [htail1, cbufferInit] using this)
    (by
      have := hslot d.length l (by simp)
      simpa [htail1, cbufferInit] using this)
    (by simp)
    (by simp)
  refine ⟨st', ?_, by simpa using hcpy, ?_⟩
  · have hout' := loop_mono _ _ fuel _ _ hout (by omega)
    unfold copyRun
    simp only [runTasks, hin', Option.some_bind]
    simp only [start] at hin hout' ⊢
    simp only [outRoutine, fseek, ftell, rewind]
    simpa [start] using hout'
  · rw [hlog]
    simp [htail1, cbufferInit]


/-! ## The lines of the log -/

theorem linesOf_append (a b : List LOG_ENTRY) (op : String) (off : Int) :
    linesOf (a ++ b) op off = linesOf a op off ++ linesOf b op off := by
  simp [linesOf]

theorem linesOf_batch_other (batch : List LOG_ENTRY) (op : String) (off off' : Int)
    (hoff : ∀ e ∈ batch, e.off = off') (hne : off ≠ off') : linesOf batch op off = [] := by
  simp only [linesOf, List.filter_eq_nil_iff, decide_eq_true_eq, not_and]
  intro e he _ h
  exact hne (h ▸ hoff e he)

theorem linesOf_batch_same (batch : List LOG_ENTRY) (op : String) (off : Int)
    (hoff : ∀ e ∈ batch, e.off = off) :
    linesOf batch op off = batch.filter fun e => e.op = op := by
  simp only [linesOf]
  apply List.filter_congr
  intro e he
  simp [hoff e he]

theorem linesOf_perByte_op (entries : Int → Byte → Int → List LOG_ENTRY) (op : String)
    (hop : ∀ off b i, ∀ e ∈ entries off b i, e.op ≠ op)
    (k : Nat) (bytes : List Byte) (indexes : List Int) (off : Int) :
    linesOf (perByte entries k bytes indexes) op off = [] := by
  induction bytes generalizing k indexes with
  | nil => simp [perByte, linesOf]
  | cons b rest ih =>
    cases indexes with
    | nil => simp [perByte, linesOf]
    | cons i is =>
      rw [perByte, linesOf_append, ih (k + 1) is, List.append_nil]
      simp only [linesOf, List.filter_eq_nil_iff, decide_eq_true_eq, not_and]
      intro e he h
      exact absurd h (hop _ b i e he)

theorem linesOf_perByte_before (entries : Int → Byte → Int → List LOG_ENTRY) (op : String)
    (hoff : ∀ off b i, ∀ e ∈ entries off b i, e.off = off)
    (k : Nat) (bytes : List Byte) (indexes : List Int) (off : Int) (h : off ≤ k) :
    linesOf (perByte entries k bytes indexes) op off = [] := by
  induction bytes generalizing k indexes with
  | nil => simp [perByte, linesOf]
  | cons b rest ih =>
    cases indexes with
    | nil => simp [perByte, linesOf]
    | cons i is =>
      rw [perByte, linesOf_append, ih (k + 1) is (by push_cast; omega), List.append_nil]
      exact linesOf_batch_other _ op off _ (hoff _ b i) (by omega)

theorem linesOf_perByte_at (entries : Int → Byte → Int → List LOG_ENTRY) (op : String)
    (hoff : ∀ off b i, ∀ e ∈ entries off b i, e.off = off)
    (k : Nat) (bytes : List Byte) (indexes : List Int) (j : Nat) (b : Byte) (i : Int)
    (hb : bytes[j]? = some b) (hi : indexes[j]? = some i) :
    linesOf (perByte entries k bytes indexes) op ((k : Int) + j + 1) =
      (entries ((k : Int) + j + 1) b i).filter fun e => e.op = op := by
  induction bytes generalizing k indexes j with
  | nil => simp at hb
  | cons b0 rest ih =>
    cases indexes with
    | nil => simp at hi
    | cons i0 is =>
      rw [perByte, linesOf_append]
      cases j with
      | zero =>
        simp only [List.getElem?_cons_zero, Option.some.injEq] at hb hi
        subst hb hi
        rw [linesOf_perByte_before entries op hoff (k + 1) rest is _ (by push_cast; omega),
          List.append_nil]
        simp only [Nat.cast_zero, add_zero]
        exact linesOf_batch_same _ op _ (hoff _ b0 i0)
      | succ j =>
        simp only [List.getElem?_cons_succ] at hb hi
        rw [linesOf_batch_other _ op _ _ (hoff _ b0 i0) (by push_cast; omega), List.nil_append]
        have := ih (k + 1) is j hb hi
        push_cast at this ⊢
        rw [show (k : Int) + (j + 1) + 1 = (k : Int) + 1 + j + 1 by ring]
        exact this

theorem ringIdx_getElem? (size : Int) (n : Nat) (t : Int) (j : Nat) (h0 : 0 ≤ t)
    (h1 : t < size) (hn : (n : Int) ≤ size) (hj : j < n) :
    (ringIdx size t n)[j]? = some (adv size t ((j : Int) + 1)) := by
  induction n generalizing t j with
  | zero => omega
  | succ n ih =>
    cases j with
    | zero => simp [ringIdx]
    | succ j =>
      have hr := adv_range size t 1 h0 h1 (by omega) (by omega)
      simp only [ringIdx, List.getElem?_cons_succ]
      rw [ih (adv size t 1) j hr.1 hr.2 (by push_cast at hn; omega) (by omega),
        adv_succ size t ((j : Int) + 1) h1 (by omega) (by push_cast at hn; omega)]
      simp

theorem prodLog_off (t_num off : Int) (b : Byte) (i : Int) :
    ∀ e ∈ [(⟨"read_byte", "PT", t_num, off, b, -1⟩ : LOG_ENTRY),
      ⟨"produce", "PT", t_num, off, b, i⟩], e.off = off := by
  simp

theorem consLog_off (t_num off : Int) (b : Byte) (i : Int) :
    ∀ e ∈ [(⟨"consume", "CT", t_num, off, b, i⟩ : LOG_ENTRY),
      ⟨"write_byte", "CT", t_num, off, b, -1⟩], e.off = off := by
  simp

/-- C7, as the code has it.  One producer and one consumer (both numbered 0),
a buffer size of at least the source length and below 2147483647 (so that
`size + 1` is an `int`), the producer running to
end-of-file before the consumer starts, and a non-empty source `d ++ [l]` free
of the byte `0xFF`.  Both threads exit.  For every byte but the last (offsets
`1 .. n - 1`) the log holds exactly one `read_byte`, one `produce`, one
`consume` and one `write_byte` line with that offset, all four carrying the
value of the byte, and the `consume` line carries the index of the `produce`
line.  For the last byte (offset `n`) the log holds exactly one `produce`
line, and two `read_byte` lines: the one of the byte, and the one that the
producer writes for the read that meets end-of-file, with value 255. -/
theorem log_lines (d : List Byte) (l : Byte) (size : Int) (mem : Nat → BUFFER_ITEM)
    (fuel : Nat) (hff : ∀ b ∈ d ++ [l], b ≠ 255) (hsize : (d.length : Int) + 1 ≤ size)
    (hmax : size < 2147483647) (hfuel : d.length + 2 ≤ fuel) :
    ∃ st', copyRun fuel (d ++ [l]) size mem = some st' ∧
      (∀ (j : Nat) (b : Byte), d[j]? = some b →
        linesOf st'.log_file "read_byte" ((j : Int) + 1) =
          [⟨"read_byte", "PT", 0, (j : Int) + 1, b, -1⟩] ∧
        linesOf st'.log_file "produce" ((j : Int) + 1) =
          [⟨"produce", "PT", 0, (j : Int) + 1, b, adv size 0 ((j : Int) + 1)⟩] ∧
        linesOf st'.log_file "consume" ((j : Int) + 1) =
          [⟨"consume", "CT", 0, (j : Int) + 1, b, adv size 0 ((j : Int) + 1)⟩] ∧
        linesOf st'.log_file "write_byte" ((j : Int) + 1) =
          [⟨"write_byte", "CT", 0, (j : Int) + 1, b, -1⟩]) ∧
      linesOf st'.log_file "read_byte" ((d.length : Int) + 1) =
        [⟨"read_byte", "PT", 0, (d.length : Int) + 1, l, -1⟩,
         ⟨"read_byte", "PT", 0, (d.length : Int) + 1, 255, -1⟩] ∧
      linesOf st'.log_file "produce" ((d.length : Int) + 1) =
        [⟨"produce", "PT", 0, (d.length : Int) + 1, l, adv size 0 ((d.length : Int) + 1)⟩] := by
  obtain ⟨st', hrun, -, hlog⟩ := copyRun_run d l size mem fuel hff hsize hmax hfuel
  have hsize0 : (0 : Int) < size := by omega
  have hidxP : ∀ j : Nat, j < d.length + 1 →
      (ringIdx size 0 (d.length + 1))[j]? = some (adv size 0 ((j : Int) + 1)) := fun j hj =>
    ringIdx_getElem? size (d.length + 1) 0 j (le_refl 0) hsize0 (by push_cast; omega) hj
  have hidxC : ∀ j : Nat, j < d.length →
      (ringIdx size 0 d.length)[j]? = some (adv size 0 ((j : Int) + 1)) := fun j hj =>
    ringIdx_getElem? size d.length 0 j (le_refl 0) hsize0 (by omega) hj
  have hprod : ∀ (op : String) (j : Nat) (b : Byte), (d ++ [l])[j]? = some b →
      linesOf (prodLog 0 0 (d ++ [l]) (ringIdx size 0 (d.length + 1))) op ((j : Int) + 1) =
        [(⟨"read_byte", "PT", 0, (j : Int) + 1, b, -1⟩ : LOG_ENTRY),
          ⟨"produce", "PT", 0, (j : Int) + 1, b, adv size 0 ((j : Int) + 1)⟩].filter
          fun e => e.op = op := by
    intro op j b hb
    have hj : j < (d ++ [l]).length := (List.getElem?_eq_some.mp hb).1
    have := linesOf_perByte_at _ op (prodLog_off 0) 0 (d ++ [l]) _ j b _ hb
      (hidxP j (by simpa using hj))
    simpa [prodLog] using this
  have hcons : ∀ (op : String) (j : Nat) (b : Byte), d[j]? = some b →
      linesOf (consLog 0 0 d (ringIdx size 0 d.length)) op ((j : Int) + 1) =
        [(⟨"consume", "CT", 0, (j : Int) + 1, b, adv size 0 ((j : Int) + 1)⟩ : LOG_ENTRY),
          ⟨"write_byte", "CT", 0, (j : Int) + 1, b, -1⟩].filter fun e => e.op = op := by
    intro op j b hb
    have hj : j < d.length := (List.getElem?_eq_some.mp hb).1
    have := linesOf_perByte_at _ op (consLog_off 0) 0 d _ j b _ hb (hidxC j hj)
    simpa [consLog] using this
  have hprodOp : ∀ (op : String) (off : Int), op ≠ "read_byte" → op ≠ "produce" →
      linesOf (prodLog 0 0 (d ++ [l]) (ringIdx size 0 (d.length + 1))) op off = [] := by
    intro op off h1 h2
    apply linesOf_perByte_op
    intro off b i e he
    simp only [List.mem_cons, List.mem_singleton, List.not_mem_nil, or_false] at he
    rcases he with rfl | rfl
    · exact fun h => h1 h.symm
    · exact fun h => h2 h.symm
  have hconsOp : ∀ (op : String) (off : Int), op ≠ "consume" → op ≠ "write_byte" →
      linesOf (consLog 0 0 d (ringIdx size 0 d.length)) op off = [] := by
    intro op off h1 h2
    apply linesOf_perByte_op
    intro off b i e he
    simp only [List.mem_cons, List.mem_singleton, List.not_mem_nil, or_false] at he
    rcases he with rfl | rfl
    · exact fun h => h1 h.symm
    · exact fun h => h2 h.symm
  refine ⟨st', hrun, ?_, ?_, ?_⟩
  · intro j b hb
    have hj : j < d.length := (List.getElem?_eq_some.mp hb).1
    have hb' : (d ++ [l])[j]? = some b := by rw [List.getElem?_append_left hj]; exact hb
    have hne : ¬ d.length = j := by omega
    refine ⟨?_, ?_, ?_, ?_⟩
    · rw [hlog, linesOf_append, linesOf_append, hprod _ j b hb',
        hconsOp _ _ (by decide) (by decide)]
      simp [linesOf, hne]
    · rw [hlog, linesOf_append, linesOf_append, hprod _ j b hb',
        hconsOp _ _ (by decide) (by decide)]
      simp [linesOf]
    · rw [hlog, linesOf_append, linesOf_append, hcons _ j b hb,
        hprodOp _ _ (by decide) (by decide)]
      simp [linesOf]
    · rw [hlog, linesOf_append, linesOf_append, hcons _ j b hb,
        hprodOp _ _ (by decide) (by decide)]
      simp [linesOf]
  · rw [hlog, linesOf_append, linesOf_append, hprod _ d.length l (by simp),
      hconsOp _ _ (by decide) (by decide)]
    simp [linesOf]
  · rw [hlog, linesOf_append, linesOf_append, hprod _ d.length l (by simp),
      hconsOp _ _ (by decide) (by decide)]
    simp [linesOf]

set_option maxRecDepth 4000 in
/-- Witness of C7 as amended: the source `"AB"` with buffer size 4. -/
theorem log_lines_witness :
    ∃ st', copyRun 3 ([65] ++ [66]) 4 (fun _ => ⟨0, 0⟩) = some st' ∧
      linesOf st'.log_file "consume" (((0 : Nat) : Int) + 1) =
        [⟨"consume", "CT", 0, ((0 : Nat) : Int) + 1, 65, adv 4 0 (((0 : Nat) : Int) + 1)⟩] ∧
      linesOf st'.log_file "read_byte" ((([65] : List Byte).length : Int) + 1) =
        [⟨"read_byte", "PT", 0, (([65] : List Byte).length : Int) + 1, 66, -1⟩,
         ⟨"read_byte", "PT", 0, (([65] : List Byte).length : Int) + 1, 255, -1⟩] :=
  match log_lines [65] 66 4 (fun _ => ⟨0, 0⟩) 3 (by decide) (by decide) (by decide)
      (by decide) with
  | ⟨st', hrun, hbytes, hread, _⟩ => ⟨st', hrun, (hbytes 0 65 (by decide)).2.2.1, hread⟩

set_option maxRecDepth 20000 in
/-- C7 as stated fails on its own example: for the source `"AB"` with buffer
size 4 the log has seven lines, not eight; three of them are `read_byte`
lines, and offset 2 has neither a `consume` nor a `write_byte` line. -/
theorem log_of_AB :
    (copyRun 3 [65, 66] 4 fun _ => ⟨0, 0⟩).map (fun st => logText st.log_file) =
      some ("read_byte PT0 O1 B65 I-1\n" ++ "produce PT0 O1 B65 I1\n" ++
        "read_byte PT0 O2 B66 I-1\n" ++ "produce PT0 O2 B66 I2\n" ++
        "read_byte PT0 O2 B255 I-1\n" ++ "consume CT0 O1 B65 I1\n" ++
        "write_byte CT0 O1 B65 I-1\n") ∧
      (copyRun 3 [65, 66] 4 fun _ => ⟨0, 0⟩).map
        (fun st => (st.log_file.length, linesOf st.log_file "consume" 2,
          linesOf st.log_file "write_byte" 2)) = some (7, [], []) := by
  decide

/-! ## The copy and the producer on concrete files -/

/-- C1 at the file `"AB"` with one producer, one consumer and buffer size 4:
both threads exit, and the destination holds `"A"` only.  The consumer pops
the item of the last byte, whose offset equals the length snapshot, and exits
before writing it. -/
theorem copy_of_AB :
    (copyRun 3 [65, 66] 4 fun _ => ⟨0, 0⟩).map (fun st => st.cpy_file.content) =
      some [65] := by
  decide

/-- C5 at the source `[0x41, 0xFF, 0x42]`: the producer exits on reading the
byte `0xFF` at offset 2, which as a `char` equals `EOF`; it has pushed one
item, not three, and the source is not at its end. -/
theorem producer_stops_at_0xFF :
    inRoutine 0 4 (start [65, 255, 66] 4 fun _ => ⟨0, 0⟩) =
      some { src_file := ⟨[65, 255, 66], 2⟩
             cpy_file := ⟨[], 0⟩
             log_file := [⟨"read_byte", "PT", 0, 1, 65, -1⟩, ⟨"produce", "PT", 0, 1, 65, 1⟩,
                          ⟨"read_byte", "PT", 0, 2, 255, -1⟩]
             circular_buffer := ⟨[⟨65, 1⟩, ⟨0, 0⟩, ⟨0, 0⟩, ⟨0, 0⟩, ⟨0, 0⟩], 1, 0, 5⟩ } := by
  decide


/-! ## The empty source -/

theorem inRoutine_empty (t_num : Int) (size : Int) (mem : Nat → BUFFER_ITEM) (st : State)
    (h : EmptyRun size mem st) :
    inRoutine t_num 1 st =
      some { st with log_file := st.log_file ++ [⟨"read_byte", "PT", t_num, 0, 255, -1⟩] } := by
  obtain ⟨hsrc, -⟩ := h
  have hseek : fseek st.src_file 0 .SEEK_SET = ⟨[], 0⟩ := by
    rw [hsrc]
    rfl
  have hbody := inBody_end t_num { st with src_file := ⟨[], 0⟩ } [] rfl
  simp only [inRoutine, hseek, loop, hbody]
  simp [hsrc]

theorem outRoutine_empty (t_num : Int) (size : Int) (mem : Nat → BUFFER_ITEM) (st : State)
    (hmem : ∀ i, 0 ≤ (mem i).offset) (hsize : 0 ≤ size) (hmax : size < 2147483647)
    (h : EmptyRun size mem st) :
    outRoutine t_num 1 st =
      some { st with circular_buffer := { st.circular_buffer with
        tail := if st.circular_buffer.tail + 1 ≥ size then 0
          else st.circular_buffer.tail + 1 } } := by
  obtain ⟨hsrc, -, hbuf, -, hmaxlen, ht0, ht1⟩ := h
  have hlen : (st.circular_buffer.buffer.length : Int) = size + 1 := by
    rw [hbuf, cbufferInit_eq size mem hsize hmax]
    simp
    omega
  have htail : st.circular_buffer.tail.toNat < (size + 1).toNat := by omega
  have hslot : st.circular_buffer.buffer[st.circular_buffer.tail.toNat]? =
      some (mem st.circular_buffer.tail.toNat) := by
    rw [hbuf, cbufferInit_eq size mem hsize hmax]
    simp [htail]
  have hlt : st.circular_buffer.tail < (st.circular_buffer.buffer.length : Int) := by omega
  have hpop : cbufferPop st.circular_buffer =
      some (if st.circular_buffer.tail + 1 ≥ size then 0 else st.circular_buffer.tail + 1,
        mem st.circular_buffer.tail.toNat,
        { st.circular_buffer with
          tail := if st.circular_buffer.tail + 1 ≥ size then 0
            else st.circular_buffer.tail + 1 }) := by
    have hcond : (st.circular_buffer.tail + 1 ≥ st.circular_buffer.maxlen - 1) =
        (st.circular_buffer.tail + 1 ≥ size) := by
      rw [hmaxlen]
      simp
    simp only [cbufferPop, pthread_mutex_lock, ne_eq, not_true_eq_false, if_false, ht0, hlt,
      and_self, if_true, hslot, hcond]
  have hsrc' : rewind (fseek st.src_file 0 .SEEK_END) = st.src_file := by
    rw [hsrc]
    rfl
  have hlast : ftell (fseek st.src_file 0 .SEEK_END) = 0 := by
    rw [hsrc]
    rfl
  have hbody := outBody_exit t_num 0 st _ _ _ hpop (hmem _)
  simp only [outRoutine, hsrc', hlast, loop]
  rw [show ({ st with src_file := st.src_file } : State) = st from rfl, hbody]

theorem runTasks_empty (size : Int) (mem : Nat → BUFFER_ITEM) (tasks : List Task)
    (st : State) (hmem : ∀ i, 0 ≤ (mem i).offset) (hsize : 0 ≤ size)
    (hmax : size < 2147483647) (h : EmptyRun size mem st) :
    ∃ st', runTasks 1 tasks st = some st' ∧ EmptyRun size mem st' ∧
      st'.log_file = st.log_file ++ readLines tasks := by
  induction tasks generalizing st with
  | nil => exact ⟨st, rfl, h, by simp [readLines]⟩
  | cons task rest ih =>
    cases task with
    | producer t_num =>
      obtain ⟨st', hrun, hinv, hlog⟩ := ih
        { st with log_file := st.log_file ++ [⟨"read_byte", "PT", t_num, 0, 255, -1⟩] } h
      refine ⟨st', ?_, hinv, ?_⟩
      · simp only [runTasks, inRoutine_empty t_num size mem st h, Option.some_bind, hrun]
      · rw [hlog]
        simp [readLines]
    | consumer t_num =>
      obtain ⟨hsrc, hcpy, hbuf, hhead, hmaxlen, ht0, ht1⟩ := id h
      obtain ⟨st', hrun, hinv, hlog⟩ := ih
        { st with circular_buffer := { st.circular_buffer with
          tail := if st.circular_buffer.tail + 1 ≥ size then 0
            else st.circular_buffer.tail + 1 } }
        ⟨hsrc, hcpy, hbuf, hhead, hmaxlen, by
          show 0 ≤ (if st.circular_buffer.tail + 1 ≥ size then 0
            else st.circular_buffer.tail + 1)
          split <;> omega, by
          show (if st.circular_buffer.tail + 1 ≥ size then 0
            else st.circular_buffer.tail + 1) ≤ size
          split <;> omega⟩
      refine ⟨st', ?_, hinv, ?_⟩
      · simp only [runTasks, outRoutine_empty t_num size mem st hmem hsize hmax h,
          Option.some_bind, hrun]
      · rw [hlog]
        simp [readLines]

/-- C9, as the code has it.  For an empty source, any buffer size with
`0 ≤ size < 2147483647` (so that `size + 1` is an `int`), and freshly allocated slots whose `offset` fields are not negative
(zero-filled memory, for one), any producers and consumers run one after the
other exit each in the first pass of its loop: a producer on its first read,
having logged one `read_byte` line and pushed nothing, a consumer on its
first pop.  The destination stays empty and the log holds the `read_byte`
lines of the producers and nothing else. -/
theorem empty_source (size : Int) (mem : Nat → BUFFER_ITEM) (tasks : List Task)
    (hsize : 0 ≤ size) (hmax : size < 2147483647) (hmem : ∀ i, 0 ≤ (mem i).offset) :
    ∃ st', runTasks 1 tasks (start [] size mem) = some st' ∧
      st'.cpy_file.content = [] ∧
      st'.log_file = readLines tasks ∧
      st'.circular_buffer.buffer = (cbufferInit size mem).buffer ∧
      st'.circular_buffer.head = 0 := by
  obtain ⟨st', hrun, hinv, hlog⟩ :=
    runTasks_empty size mem tasks (start [] size mem) hmem hsize hmax
      ⟨rfl, rfl, rfl, rfl, by simp [start, cbufferInit_eq size mem hsize hmax], le_refl 0, hsize⟩
  obtain ⟨-, hcpy, hbuf, hhead, -⟩ := hinv
  exact ⟨st', hrun, by rw [hcpy], by simpa [start] using hlog, hbuf, hhead⟩

/-- Witness of C9 as amended: two producers and two consumers on zero-filled
slots. -/
theorem empty_source_witness :
    ∃ st', runTasks 1 [.producer 0, .consumer 0, .producer 1, .consumer 1]
        (start [] 4 fun _ => ⟨0, 0⟩) = some st' ∧
      st'.cpy_file.content = [] ∧
      st'.log_file = readLines [.producer 0, .consumer 0, .producer 1, .consumer 1] ∧
      st'.circular_buffer.buffer = (cbufferInit 4 fun _ => ⟨0, 0⟩).buffer ∧
      st'.circular_buffer.head = 0 :=
  empty_source 4 (fun _ => ⟨0, 0⟩) [.producer 0, .consumer 0, .producer 1, .consumer 1]
    (by decide) (by decide) (fun _ => le_refl 0)

/-- C9 as stated fails: with slots that hold the offset `-1`, the consumer
does not exit on its first pop on an empty source.  The first pass of its
loop goes through: it logs a `consume` and a `write_byte` line and puts a byte
into the destination. -/
theorem consumer_goes_on_empty_source :
    (inRoutine 0 1 (start [] 4 fun _ => ⟨0, -1⟩)).map (outBody 0 0) =
      some (.next
        { src_file := ⟨[], 0⟩
          cpy_file := ⟨[0], 1⟩
          log_file := [⟨"read_byte", "PT", 0, 0, 255, -1⟩, ⟨"consume", "CT", 0, -1, 0, 1⟩,
                       ⟨"write_byte", "CT", 0, -1, 0, -1⟩]
          circular_buffer :=
            ⟨[⟨0, -1⟩, ⟨0, -1⟩, ⟨0, -1⟩, ⟨0, -1⟩, ⟨0, -1⟩], 0, 1, 5⟩ }) ∧
      runTasks 1 [.producer 0, .consumer 0] (start [] 4 fun _ => ⟨0, -1⟩) = none := by
  decide

end Copy
